import Mathlib

/-!
Verification of the zone-partitioning engine and contact-group mapper of the
djmd5-tr converter (`src/main.rs`, function `write_channels`).

The registry of zones (a Rust `HashMap<String, Vec<String>>`) is modelled as an
association list `Registry`; hash-map iteration order corresponds to the order
of the list, so "two runs of the program" are modelled as two permutations of
the same association list.  All decisions the balancer takes go through the
explicitly sorted cluster snapshot, exactly as in the source.
-/

namespace DJMD5

/-- The two fields of a channel record that the zone/contact engine reads
(`CmChannel.name` and `CmChannel.group_id`). -/
structure Chan where
  name : String
  group_id : String
deriving DecidableEq, Repr

/-- First component of `group_id.split(' ')` in the source: the characters of
the string up to (not including) the first space. -/
def firstTok (s : String) : String :=
  (s.data.takeWhile (fun c => c != ' ')).asString

/-- Rust `str::parse::<u32>()`: an optional leading plus sign followed by one
or more decimal digits, value below `2 ^ 32`; anything else is an error. -/
def parseU32 (s : String) : Option Nat :=
  let t := match s.data with
    | '+' :: rest => rest.asString
    | _ => s
  if t.data ≠ [] ∧ t.data.all (fun c => c.isDigit) then
    let n := t.data.foldl (fun a c => a * 10 + (c.toNat - 48)) 0
    if n < 2 ^ 32 then some n else none
  else none

/-- One iteration of the contact-table update (`main.rs` lines 286-301): if the
group field is non-empty and its leading token parses as a `u32`, the table
keeps the first label inserted for that id; otherwise the label is empty.
Returns the updated table and the label used for this channel. -/
def contactStep (groups : List (Nat × String)) (ch : Chan) : List (Nat × String) × String :=
  if ch.group_id ≠ "" then
    match parseU32 (firstTok ch.group_id) with
    | some n =>
      match groups.lookup n with
      | some lbl => (groups, lbl)
      | none => (groups ++ [(n, ch.group_id)], ch.group_id)
    | none => (groups, "")
  else (groups, "")

/-- Process the channels in input order, returning the final contact table and
the per-channel contact labels. -/
def contactsAux (groups : List (Nat × String)) : List Chan → List (Nat × String) × List String
  | [] => (groups, [])
  | ch :: rest =>
    let p := contactStep groups ch
    let q := contactsAux p.1 rest
    (q.1, p.2 :: q.2)

/-- The contact table after processing a whole channel list. -/
def contactTable (chs : List Chan) : List (Nat × String) :=
  (contactsAux [] chs).1

/-- The per-channel contact labels after processing a whole channel list. -/
def contactLabels (chs : List Chan) : List String :=
  (contactsAux [] chs).2

/-- The numeric contact id the code derives for a channel: defined only when
the group field is non-empty and its leading token parses as a `u32`. -/
def chanId (ch : Chan) : Option Nat :=
  if ch.group_id ≠ "" then parseU32 (firstTok ch.group_id) else none

/-- Zone key derivation (`main.rs` lines 303-307): the leading token of the
group field, or `"Default"` when that token is empty. -/
def zoneKeyOf (groupField : String) : String :=
  if firstTok groupField ≠ "" then firstTok groupField else "Default"

/-- The zone registry: the Rust `HashMap<String, Vec<String>>` as an
association list. -/
abbrev Registry := List (String × List String)

/-- The keys of the registry. -/
def keysOf (r : Registry) : List String := r.map Prod.fst

/-- The registry has pairwise distinct keys (always true of a `HashMap`). -/
def NodupKeys (r : Registry) : Prop := (keysOf r).Nodup

/-- All channel names stored in the registry, with multiplicity. -/
def contents (r : Registry) : List String := r.flatMap Prod.snd

/-- `zones.get_mut(&zone)` / `zones.insert(zone, v)` of the grouping loop
(`main.rs` lines 308-314): append the channel name to the zone's list,
creating the zone if absent. -/
def addToZone (zones : Registry) (key name : String) : Registry :=
  if (zones.lookup key).isSome then
    zones.map (fun kv => if kv.1 = key then (kv.1, kv.2 ++ [name]) else kv)
  else zones ++ [(key, [name])]

/-- Build the initial registry from the input channel list. -/
def buildZones (chs : List Chan) : Registry :=
  chs.foldl (fun z ch => addToZone z (zoneKeyOf ch.group_id) ch.name) []

/-- Strict lexicographic order on character lists, comparing code points:
exactly Rust's `Ord` on `String` (UTF-8 byte order equals code-point
order). -/
def lexLt : List Char → List Char → Bool
  | [], [] => false
  | [], _ :: _ => true
  | _ :: _, [] => false
  | a :: as, b :: bs =>
    if a.toNat < b.toNat then true
    else if b.toNat < a.toNat then false
    else lexLt as bs

/-- Rust's non-strict `String` order: `a <= b` iff not `b < a`. -/
def strLE (a b : String) : Prop := lexLt b.data a.data = false

instance : DecidableRel strLE := fun a b =>
  inferInstanceAs (Decidable (lexLt b.data a.data = false))

/-- `Vec<String>::sort()` (stable, lexicographic).  A stable sort's output is
determined by the order alone, so insertion sort models it exactly. -/
def sortStrings (l : List String) : List String :=
  List.insertionSort strLE l

/-- Comparison of `(usize, String)` pairs used by `clusters.sort()`:
lexicographic, size first, key as tie break. -/
def pairLE (a b : Nat × String) : Prop :=
  a.1 < b.1 ∨ (a.1 = b.1 ∧ strLE a.2 b.2)

instance : DecidableRel pairLE := fun a b =>
  inferInstanceAs (Decidable (a.1 < b.1 ∨ (a.1 = b.1 ∧ strLE a.2 b.2)))

/-- The raw `(size, key)` cluster list (`main.rs` lines 357-360). -/
def snapshotOf (r : Registry) : List (Nat × String) :=
  r.map (fun kv => (kv.2.length, kv.1))

/-- The sorted cluster snapshot (`main.rs` line 361). -/
def sortedClusters (r : Registry) : List (Nat × String) :=
  List.insertionSort pairLE (snapshotOf r)

/-- Result of one iteration of the balancer loop: continue with a new
registry, leave the loop, or abort (failed `unwrap` / failed assert / index
out of bounds). -/
inductive Outcome where
  | next (r : Registry)
  | stop
  | panic
deriving DecidableEq, Repr

/-- `zones.remove(&k)`: drop the entry with key `k`. -/
def removeKey (r : Registry) (k : String) : Registry :=
  r.filter (fun kv => kv.1 != k)

/-- `zones.contains_key(&k)`. -/
def containsKey (r : Registry) (k : String) : Bool :=
  (r.lookup k).isSome

/-- `format!("{}_{}", base, n)`: a split key candidate. -/
def subKey (base : String) (n : Nat) : String :=
  base ++ "_" ++ Nat.repr n

/-- The sequential suffix search of the split rule (`main.rs` lines 376-391):
starting at `cur`, return the first suffix whose key is not in the registry.
The fuel bound is immaterial whenever a free suffix exists within it, which
the pigeonhole argument below guarantees for fuel `z.length + 1`. -/
def findSuffix (z : Registry) (base : String) : Nat → Nat → Nat
  | 0, cur => cur
  | fuel + 1, cur =>
    if containsKey z (subKey base cur) then findSuffix z base fuel (cur + 1) else cur

/-- The merge rule body (`main.rs` lines 362-368): remove the two chosen
clusters, concatenate their lists, insert under the joined key.  A missing
key (`unwrap`) or a colliding new key (`assert_eq!`) aborts. -/
def doMerge (zones : Registry) (c0 c1 : Nat × String) : Outcome :=
  match zones.lookup c0.2 with
  | none => .panic
  | some head =>
    let z1 := removeKey zones c0.2
    match z1.lookup c1.2 with
    | none => .panic
    | some tail =>
      let z2 := removeKey z1 c1.2
      let key := c0.2 ++ "/" ++ c1.2
      if containsKey z2 key then .panic
      else .next (z2 ++ [(key, head ++ tail)])

/-- The split rule body (`main.rs` lines 370-392): remove the largest cluster,
sort its list, split at half the snapshot size, insert the two halves under
the first two free suffix keys. -/
def doSplit (zones : Registry) (cl : Nat × String) : Outcome :=
  match zones.lookup cl.2 with
  | none => .panic
  | some v =>
    let z1 := removeKey zones cl.2
    let sorted := sortStrings v
    let lo := sorted.take (cl.1 / 2)
    let hi := sorted.drop (cl.1 / 2)
    let n1 := findSuffix z1 cl.2 (z1.length + 1) 1
    let z2 := z1 ++ [(subKey cl.2 n1, lo)]
    let n2 := findSuffix z2 cl.2 (z2.length + 1) (n1 + 1)
    .next (z2 ++ [(subKey cl.2 n2, hi)])

/-- The merge guard `clusters.len() > 2 && clusters[0].0 + clusters[1].0 < 50`
(`main.rs` line 362), returning the two chosen clusters when it fires. -/
def mergeCand (cl : List (Nat × String)) : Option ((Nat × String) × (Nat × String)) :=
  match cl with
  | c0 :: c1 :: _ :: _ => if c0.1 + c1.1 < 50 then some (c0, c1) else none
  | _ => none

/-- The split guard (`main.rs` lines 370-371): `clusters[clusters.len() - 1]`
aborts on an empty snapshot; otherwise split when the largest cluster
strictly exceeds 100, else leave the loop. -/
def splitOrStop (zones : Registry) (cl : List (Nat × String)) : Outcome :=
  match cl.getLast? with
  | none => .panic
  | some cL => if cL.1 > 100 then doSplit zones cL else .stop

/-- One full iteration of the rebalancing loop (`main.rs` lines 356-395). -/
def balanceStep (zones : Registry) : Outcome :=
  let cl := sortedClusters zones
  match mergeCand cl with
  | some cc => doMerge zones cc.1 cc.2
  | none => splitOrStop zones cl

/-- Result of running the balancer loop with a fuel bound. -/
inductive BalRes where
  | ok (r : Registry)
  | panic
  | fuelOut
deriving DecidableEq, Repr

/-- Run the balancer loop for at most `n` iterations. -/
def balanceLoop : Nat → Registry → BalRes
  | 0, _ => .fuelOut
  | n + 1, r =>
    match balanceStep r with
    | .stop => .ok r
    | .panic => .panic
    | .next r2 => balanceLoop n r2

/-- Number of merge/split iterations performed within the fuel bound. -/
def balanceCount : Nat → Registry → Nat
  | 0, _ => 0
  | n + 1, r =>
    match balanceStep r with
    | .next r2 => balanceCount n r2 + 1
    | _ => 0

/-- One output row of the zone table (`main.rs` lines 398-412). -/
structure ZoneRow where
  idx : Nat
  key : String
  chans : List String
  chanA : String
  chanB : String
deriving DecidableEq, Repr

/-- The serializer loop body, over the sorted key list: remove each zone, sort
its channel list, read the first and last element (aborting when the list is
empty, as `chans[0]` would) and emit the row. -/
def rowsAux : Registry → List String → Nat → Option (List ZoneRow)
  | _, [], _ => some []
  | z, k :: rest, i =>
    match z.lookup k with
    | none => none
    | some chans =>
      let z2 := removeKey z k
      match sortStrings chans with
      | [] => none
      | a :: t =>
        match rowsAux z2 rest (i + 1) with
        | none => none
        | some rows =>
          some (⟨i + 1, k, a :: t, a, (a :: t).getLast (List.cons_ne_nil a t)⟩ :: rows)

/-- The zone serializer (`main.rs` lines 396-413): sort the keys, then emit
one row per zone. -/
def writeZones (z : Registry) : Option (List ZoneRow) :=
  rowsAux z (sortStrings (keysOf z)) 0

/-- Render one zone row exactly as the `format!` at `main.rs` line 404. -/
def renderZoneRow (row : ZoneRow) : String :=
  "\"" ++ Nat.repr row.idx ++ "\",\"" ++ row.key ++ "\",\"" ++
    String.intercalate ("|") row.chans ++ "\",\"" ++ row.chanA ++ "\",\"" ++
    row.chanB ++ "\"\r\n"

/-- Render the whole zone table. -/
def renderZones (z : Registry) : Option String :=
  (writeZones z).map (fun rows => String.join (rows.map renderZoneRow))

/-- Render one contact-group row exactly as the `format!` at `main.rs`
line 333. -/
def groupRow (i : Nat) (k : Nat) (v : String) : String :=
  "\"" ++ Nat.repr i ++ "\",\"" ++ Nat.repr k ++ "\",\"" ++ v ++
    "\",\"Group Call\",\"None\"\r\n"

/-- Render the contact-group table from the entries in the order the hash map
yields them (`for (k, v) in groups.iter()`, `main.rs` lines 332-339). -/
def renderGroups (entries : List (Nat × String)) : String :=
  String.join (entries.enum.map (fun p => groupRow (p.1 + 1) p.2.1 p.2.2))

/-- Sum over all zones of the amount by which the zone exceeds the split
threshold. -/
def excess (r : Registry) : Nat :=
  (r.map (fun kv => kv.2.length - 100)).sum

/-- Termination measure for the balancer loop: merges keep `excess` and
shrink the registry, splits shrink `excess`. -/
def balMeasure (r : Registry) : Nat :=
  2 * excess r + r.length

/-- Value of a decimal digit string (used to invert `Nat.repr`). -/
def digitsVal (l : List Char) : Nat :=
  l.foldl (fun a c => 10 * a + (c.toNat - 48)) 0

/-! ### Order theory for the lexicographic comparisons -/

theorem lexLt_irrefl : ∀ x : List Char, lexLt x x = false
  | [] => rfl
  | _ :: as => by simp [lexLt, lexLt_irrefl as]

theorem lexLt_cons (a b : Char) (as bs : List Char) :
    lexLt (a :: as) (b :: bs) =
      if a.toNat < b.toNat then true
      else if b.toNat < a.toNat then false else lexLt as bs := rfl

theorem lexLt_trans : ∀ x y z : List Char,
    lexLt x y = true → lexLt y z = true → lexLt x z = true
  | [], [], _, h1, _ => absurd h1 Bool.false_ne_true
  | [], _ :: _, [], _, h2 => absurd h2 Bool.false_ne_true
  | [], _ :: _, _ :: _, _, _ => rfl
  | _ :: _, [], _, h1, _ => absurd h1 Bool.false_ne_true
  | _ :: _, _ :: _, [], _, h2 => absurd h2 Bool.false_ne_true
  | a :: as, b :: bs, c :: cs, h1, h2 => by
    rw [lexLt_cons] at h1 h2 ⊢
    rcases Nat.lt_trichotomy a.toNat b.toNat with hab | hab | hab
    · rcases Nat.lt_trichotomy b.toNat c.toNat with hbc | hbc | hbc
      · rw [if_pos (by omega)]
      · rw [if_pos (by omega)]
      · rw [if_neg (by omega), if_pos hbc] at h2
        exact absurd h2 Bool.false_ne_true
    · rw [if_neg (by omega), if_neg (by omega)] at h1
      rcases Nat.lt_trichotomy b.toNat c.toNat with hbc | hbc | hbc
      · rw [if_pos (by omega)]
      · rw [if_neg (by omega), if_neg (by omega)] at h2 ⊢
        exact lexLt_trans as bs cs h1 h2
      · rw [if_neg (by omega), if_pos hbc] at h2
        exact absurd h2 Bool.false_ne_true
    · rw [if_neg (by omega), if_pos hab] at h1
      exact absurd h1 Bool.false_ne_true

theorem lexLt_tri : ∀ x y : List Char, lexLt x y = true ∨ lexLt y x = true ∨ x = y
  | [], [] => Or.inr (Or.inr rfl)
  | [], _ :: _ => Or.inl rfl
  | _ :: _, [] => Or.inr (Or.inl rfl)
  | a :: as, b :: bs => by
    rcases Nat.lt_trichotomy a.toNat b.toNat with hab | hab | hab
    · exact Or.inl (by simp only [lexLt]; rw [if_pos hab])
    · have hchar : a = b := Char.eq_of_val_eq (UInt32.toNat.inj hab)
      subst hchar
      rcases lexLt_tri as bs with h | h | h
      · exact Or.inl (by simp only [lexLt]; rw [if_neg (by omega), if_neg (by omega)]; exact h)
      · exact Or.inr (Or.inl (by simp only [lexLt]; rw [if_neg (by omega), if_neg (by omega)]; exact h))
      · exact Or.inr (Or.inr (by rw [h]))
    · exact Or.inr (Or.inl (by simp only [lexLt]; rw [if_pos hab]))

theorem lexLt_asymm {x y : List Char} (h : lexLt x y = true) : lexLt y x = false := by
  cases hyx : lexLt y x
  · rfl
  · have h3 := lexLt_trans x y x h hyx
    rw [lexLt_irrefl x] at h3
    exact absurd h3 Bool.false_ne_true

theorem string_data_inj : ∀ {a b : String}, a.data = b.data → a = b
  | ⟨l1⟩, ⟨l2⟩, h => by
    have h2 : l1 = l2 := h
    rw [h2]

theorem strLE_refl (a : String) : strLE a a := lexLt_irrefl a.data

theorem strLE_trans {a b c : String} (h1 : strLE a b) (h2 : strLE b c) : strLE a c := by
  unfold strLE at h1 h2 ⊢
  cases hca : lexLt c.data a.data
  · rfl
  · exfalso
    rcases lexLt_tri a.data b.data with h | h | h
    · have h4 := lexLt_trans c.data a.data b.data hca h
      rw [h2] at h4
      exact Bool.false_ne_true h4
    · rw [h1] at h
      exact Bool.false_ne_true h
    · rw [h] at hca
      rw [h2] at hca
      exact Bool.false_ne_true hca

theorem strLE_antisymm {a b : String} (h1 : strLE a b) (h2 : strLE b a) : a = b := by
  unfold strLE at h1 h2
  rcases lexLt_tri a.data b.data with h | h | h
  · rw [h2] at h
    exact absurd h Bool.false_ne_true
  · rw [h1] at h
    exact absurd h Bool.false_ne_true
  · exact string_data_inj h

theorem strLE_total (a b : String) : strLE a b ∨ strLE b a := by
  unfold strLE
  cases h : lexLt b.data a.data
  · exact Or.inl rfl
  · exact Or.inr (lexLt_asymm h)

instance : IsRefl String strLE := ⟨strLE_refl⟩

instance : IsTrans String strLE := ⟨fun _ _ _ => strLE_trans⟩

instance : IsAntisymm String strLE := ⟨fun _ _ => strLE_antisymm⟩

instance : IsTotal String strLE := ⟨strLE_total⟩

theorem pairLE_trans {a b c : Nat × String} (h1 : pairLE a b) (h2 : pairLE b c) : pairLE a c := by
  rcases h1 with h1 | ⟨h1, h1s⟩ <;> rcases h2 with h2 | ⟨h2, h2s⟩
  · exact Or.inl (h1.trans h2)
  · exact Or.inl (h2 ▸ h1)
  · exact Or.inl (h1 ▸ h2)
  · exact Or.inr ⟨h1.trans h2, strLE_trans h1s h2s⟩

theorem pairLE_antisymm {a b : Nat × String} (h1 : pairLE a b) (h2 : pairLE b a) : a = b := by
  rcases h1 with h1 | ⟨h1, h1s⟩ <;> rcases h2 with h2 | ⟨h2, h2s⟩
  · omega
  · omega
  · omega
  · exact Prod.ext h1 (strLE_antisymm h1s h2s)

theorem pairLE_total (a b : Nat × String) : pairLE a b ∨ pairLE b a := by
  rcases Nat.lt_trichotomy a.1 b.1 with h | h | h
  · exact Or.inl (Or.inl h)
  · rcases strLE_total a.2 b.2 with hs | hs
    · exact Or.inl (Or.inr ⟨h, hs⟩)
    · exact Or.inr (Or.inr ⟨h.symm, hs⟩)
  · exact Or.inr (Or.inl h)

instance : IsTrans (Nat × String) pairLE := ⟨fun _ _ _ => pairLE_trans⟩

instance : IsAntisymm (Nat × String) pairLE := ⟨fun _ _ => pairLE_antisymm⟩

instance : IsTotal (Nat × String) pairLE := ⟨pairLE_total⟩

/-! ### Association list lemmas -/

theorem lookup_cons_eq {α β : Type} [BEq α] [LawfulBEq α] (k : α) (v : β) (r : List (α × β)) :
    ((k, v) :: r).lookup k = some v := by
  simp [List.lookup_cons]

theorem lookup_cons_ne {α β : Type} [BEq α] [LawfulBEq α] {k a : α} (v : β) (r : List (α × β))
    (h : a ≠ k) : ((k, v) :: r).lookup a = r.lookup a := by
  simp [List.lookup_cons, beq_eq_false_iff_ne.mpr h]

theorem lookup_mem {α β : Type} [BEq α] [LawfulBEq α] :
    ∀ {r : List (α × β)} {k : α} {v : β}, r.lookup k = some v → (k, v) ∈ r
  | (k2, v2) :: rest, k, v, h => by
    cases h2 : (k == k2 : Bool)
    · rw [List.lookup_cons, h2] at h
      exact List.mem_cons_of_mem _ (lookup_mem h)
    · rw [List.lookup_cons, h2] at h
      cases h
      rw [eq_of_beq h2]
      exact List.mem_cons_self _ _

theorem lookup_none_iff {α β : Type} [BEq α] [LawfulBEq α] :
    ∀ {r : List (α × β)} {k : α}, r.lookup k = none ↔ k ∉ r.map Prod.fst
  | [], k => by simp
  | (k2, v2) :: rest, k => by
    by_cases h : k = k2
    · subst h
      rw [lookup_cons_eq]
      simp
    · rw [lookup_cons_ne _ _ h]
      simp only [List.map_cons, List.mem_cons]
      rw [lookup_none_iff]
      constructor
      · intro hn hm
        rcases hm with hm | hm
        · exact h hm
        · exact hn hm
      · intro hn hm
        exact hn (Or.inr hm)

theorem lookup_of_mem_keys {α β : Type} [BEq α] [LawfulBEq α] {r : List (α × β)} {k : α}
    (h : k ∈ r.map Prod.fst) : ∃ v, r.lookup k = some v := by
  cases h2 : r.lookup k
  · exact absurd h (lookup_none_iff.mp h2)
  · exact ⟨_, rfl⟩

theorem lookup_of_mem_nodup {α β : Type} [BEq α] [LawfulBEq α] :
    ∀ {r : List (α × β)} {k : α} {v : β},
      (r.map Prod.fst).Nodup → (k, v) ∈ r → r.lookup k = some v
  | [], _, _, _, hm => absurd hm (List.not_mem_nil _)
  | (k2, v2) :: rest, k, v, hnd, hm => by
    rcases List.mem_cons.mp hm with hm | hm
    · cases hm
      exact lookup_cons_eq _ _ _
    · have hne : k ≠ k2 := by
        intro he
        exact (List.nodup_cons.mp hnd).1 (List.mem_map.mpr ⟨(k, v), hm, he⟩)
      rw [lookup_cons_ne _ _ hne]
      exact lookup_of_mem_nodup (List.nodup_cons.mp hnd).2 hm

theorem lookup_append {α β : Type} [BEq α] [LawfulBEq α] :
    ∀ (r1 r2 : List (α × β)) (k : α),
      (r1 ++ r2).lookup k =
        match r1.lookup k with
        | some v => some v
        | none => r2.lookup k
  | [], r2, k => rfl
  | (k2, v2) :: rest, r2, k => by
    cases h2 : (k == k2 : Bool)
    · rw [List.cons_append, List.lookup_cons, h2, List.lookup_cons, h2]
      exact lookup_append rest r2 k
    · rw [List.cons_append, List.lookup_cons, h2, List.lookup_cons, h2]

/-! ### Registry lemmas -/

theorem keysOf_removeKey (r : Registry) (k : String) :
    keysOf (removeKey r k) = (keysOf r).filter (fun a => a != k) := by
  induction r with
  | nil => rfl
  | cons kv rest ih =>
    by_cases h : kv.1 = k
    · simp [removeKey, keysOf, List.filter_cons, h] at ih ⊢
      exact ih
    · simp [removeKey, keysOf, List.filter_cons, bne_iff_ne.mpr h] at ih ⊢
      exact ih

theorem removeKey_nodup {r : Registry} (k : String) (h : NodupKeys r) :
    NodupKeys (removeKey r k) := by
  unfold NodupKeys
  rw [keysOf_removeKey]
  exact h.filter _

theorem not_mem_keysOf_removeKey (r : Registry) (k : String) :
    k ∉ keysOf (removeKey r k) := by
  rw [keysOf_removeKey]
  intro hm
  have := (List.mem_filter.mp hm).2
  simp at this

theorem mem_keysOf_removeKey {r : Registry} {k2 k : String} (h : k2 ≠ k) :
    k2 ∈ keysOf (removeKey r k) ↔ k2 ∈ keysOf r := by
  rw [keysOf_removeKey]
  constructor
  · intro hm
    exact (List.mem_filter.mp hm).1
  · intro hm
    exact List.mem_filter.mpr ⟨hm, bne_iff_ne.mpr h⟩

theorem removeKey_eq_self {r : Registry} {k : String} (h : k ∉ keysOf r) :
    removeKey r k = r := by
  apply List.filter_eq_self.mpr
  intro kv hm
  refine bne_iff_ne.mpr ?_
  intro he
  exact h (he ▸ List.mem_map_of_mem Prod.fst hm)

theorem remove_perm : ∀ {r : Registry} {k : String} {v : List String},
    NodupKeys r → r.lookup k = some v → r.Perm ((k, v) :: removeKey r k)
  | [], _, _, _, hl => by simp at hl
  | (k2, v2) :: rest, k, v, hnd, hl => by
    by_cases h : k = k2
    · subst h
      rw [lookup_cons_eq] at hl
      injection hl with hv
      subst hv
      have hk : k ∉ keysOf rest := (List.nodup_cons.mp hnd).1
      have h5 : removeKey ((k, v2) :: rest) k = removeKey rest k := by
        simp [removeKey, List.filter_cons]
      rw [h5, removeKey_eq_self hk]
    · rw [lookup_cons_ne _ _ h] at hl
      have hnd2 : NodupKeys rest := (List.nodup_cons.mp hnd).2
      have ih := remove_perm hnd2 hl
      have hrk : removeKey ((k2, v2) :: rest) k = (k2, v2) :: removeKey rest k := by
        simp [removeKey, List.filter_cons, bne_iff_ne.mpr (Ne.symm h)]
      rw [hrk]
      exact (List.Perm.cons (k2, v2) ih).trans
        (List.Perm.swap (k, v) (k2, v2) (removeKey rest k))

theorem nodupKeys_append_single {r : Registry} {k : String} {v : List String}
    (hnd : NodupKeys r) (h : k ∉ keysOf r) : NodupKeys (r ++ [(k, v)]) := by
  have h2 : keysOf (r ++ [(k, v)]) = keysOf r ++ [k] := by simp [keysOf]
  unfold NodupKeys
  rw [h2, List.nodup_append]
  refine ⟨hnd, List.nodup_singleton k, ?_⟩
  intro a ha hb
  have h3 : a = k := List.mem_singleton.mp hb
  subst h3
  exact h ha

theorem nodupKeys_perm {r r2 : Registry} (hp : r.Perm r2) (hnd : NodupKeys r) :
    NodupKeys r2 :=
  ((hp.map Prod.fst).nodup_iff).mp hnd

theorem contents_append (r1 r2 : Registry) :
    contents (r1 ++ r2) = contents r1 ++ contents r2 := by
  simp [contents]

theorem contents_cons (kv : String × List String) (r : Registry) :
    contents (kv :: r) = kv.2 ++ contents r := rfl

theorem contents_perm {r r2 : Registry} (hp : r.Perm r2) :
    (contents r).Perm (contents r2) :=
  hp.flatMap_right Prod.snd

theorem excess_cons (kv : String × List String) (r : Registry) :
    excess (kv :: r) = (kv.2.length - 100) + excess r := by
  simp [excess]

theorem excess_append (r1 r2 : Registry) :
    excess (r1 ++ r2) = excess r1 + excess r2 := by
  simp [excess]

theorem excess_perm {r r2 : Registry} (hp : r.Perm r2) : excess r = excess r2 :=
  List.Perm.sum_eq (hp.map _)

theorem lookup_removeKey_ne : ∀ (r : Registry) {k2 k : String}, k2 ≠ k →
    (removeKey r k).lookup k2 = r.lookup k2
  | [], _, _, _ => rfl
  | (ka, va) :: rest, k2, k, h => by
    by_cases hak : ka = k
    · subst hak
      have h5 : removeKey ((ka, va) :: rest) ka = removeKey rest ka := by
        simp [removeKey, List.filter_cons]
      rw [h5, lookup_removeKey_ne rest h, lookup_cons_ne _ _ h]
    · have h5 : removeKey ((ka, va) :: rest) k = (ka, va) :: removeKey rest k := by
        simp [removeKey, List.filter_cons, bne_iff_ne.mpr hak]
      rw [h5]
      by_cases h6 : k2 = ka
      · subst h6
        rw [lookup_cons_eq, lookup_cons_eq]
      · rw [lookup_cons_ne _ _ h6, lookup_cons_ne _ _ h6, lookup_removeKey_ne rest h]

theorem containsKey_iff_mem {r : Registry} {k : String} :
    containsKey r k = true ↔ k ∈ keysOf r := by
  unfold containsKey
  cases h : r.lookup k
  · simp only [Option.isSome_none, Bool.false_eq_true, false_iff]
    exact lookup_none_iff.mp h
  · simp only [Option.isSome_some, true_iff]
    by_contra hm
    rw [lookup_none_iff.mpr hm] at h
    cases h

theorem containsKey_eq_false_iff {r : Registry} {k : String} :
    containsKey r k = false ↔ k ∉ keysOf r := by
  rw [← Bool.not_eq_true, not_iff_not]
  exact containsKey_iff_mem

/-! ### Cluster snapshot lemmas -/

theorem sortedClusters_perm (r : Registry) : (sortedClusters r).Perm (snapshotOf r) :=
  List.perm_insertionSort pairLE (snapshotOf r)

theorem sortedClusters_sorted (r : Registry) : (sortedClusters r).Sorted pairLE :=
  List.sorted_insertionSort pairLE (snapshotOf r)

theorem snapshot_map_snd (r : Registry) : (snapshotOf r).map Prod.snd = keysOf r := by
  simp [snapshotOf, keysOf]

theorem sortedClusters_keys_perm (r : Registry) :
    ((sortedClusters r).map Prod.snd).Perm (keysOf r) := by
  rw [← snapshot_map_snd]
  exact (sortedClusters_perm r).map Prod.snd

theorem sortedClusters_length (r : Registry) : (sortedClusters r).length = r.length := by
  rw [(sortedClusters_perm r).length_eq]
  simp [snapshotOf]

theorem mem_snapshot_lookup {r : Registry} {c : Nat × String} (hnd : NodupKeys r)
    (hm : c ∈ snapshotOf r) : ∃ v, r.lookup c.2 = some v ∧ v.length = c.1 := by
  rcases List.mem_map.mp hm with ⟨kv, hkv, he⟩
  refine ⟨kv.2, ?_, ?_⟩
  · rw [← he]
    exact lookup_of_mem_nodup hnd hkv
  · rw [← he]

theorem mem_sortedClusters_lookup {r : Registry} {c : Nat × String} (hnd : NodupKeys r)
    (hm : c ∈ sortedClusters r) : ∃ v, r.lookup c.2 = some v ∧ v.length = c.1 :=
  mem_snapshot_lookup hnd ((sortedClusters_perm r).mem_iff.mp hm)

theorem mergeCand_eq_some : ∀ {cl : List (Nat × String)} {cc},
    mergeCand cl = some cc →
      cc.1.1 + cc.2.1 < 50 ∧ ∃ c2 rest, cl = cc.1 :: cc.2 :: c2 :: rest
  | [], _, h => by cases h
  | [_], _, h => by cases h
  | [_, _], _, h => by cases h
  | c0 :: c1 :: c2 :: rest, cc, h => by
    have h7 : (if c0.1 + c1.1 < 50 then some (c0, c1) else none) = some cc := h
    by_cases h5 : c0.1 + c1.1 < 50
    · rw [if_pos h5] at h7
      injection h7 with h6
      subst h6
      exact ⟨h5, c2, rest, rfl⟩
    · rw [if_neg h5] at h7
      cases h7

theorem balanceStep_merge {r : Registry} {cc} (h : mergeCand (sortedClusters r) = some cc) :
    balanceStep r = doMerge r cc.1 cc.2 := by
  show (match mergeCand (sortedClusters r) with
    | some cc => doMerge r cc.1 cc.2
    | none => splitOrStop r (sortedClusters r)) = doMerge r cc.1 cc.2
  rw [h]

theorem balanceStep_nomerge {r : Registry} (h : mergeCand (sortedClusters r) = none) :
    balanceStep r = splitOrStop r (sortedClusters r) := by
  show (match mergeCand (sortedClusters r) with
    | some cc => doMerge r cc.1 cc.2
    | none => splitOrStop r (sortedClusters r)) = splitOrStop r (sortedClusters r)
  rw [h]

theorem merge_shape {r : Registry} {c0 c1 : Nat × String} (hnd : NodupKeys r)
    (h : mergeCand (sortedClusters r) = some (c0, c1)) :
    ∃ v0 v1,
      r.lookup c0.2 = some v0 ∧
      (removeKey r c0.2).lookup c1.2 = some v1 ∧
      v0.length = c0.1 ∧ v1.length = c1.1 ∧ c0.2 ≠ c1.2 ∧
      (containsKey (removeKey (removeKey r c0.2) c1.2) (c0.2 ++ "/" ++ c1.2) = true →
        balanceStep r = .panic) ∧
      (containsKey (removeKey (removeKey r c0.2) c1.2) (c0.2 ++ "/" ++ c1.2) = false →
        balanceStep r =
          .next (removeKey (removeKey r c0.2) c1.2 ++ [(c0.2 ++ "/" ++ c1.2, v0 ++ v1)])) := by
  obtain ⟨hsum, c2, rest, hcl⟩ := mergeCand_eq_some h
  have hc0 : c0 ∈ sortedClusters r := by
    rw [hcl]
    exact List.mem_cons_self _ _
  have hc1 : c1 ∈ sortedClusters r := by
    rw [hcl]
    exact List.mem_cons_of_mem _ (List.mem_cons_self _ _)
  have hknd : ((sortedClusters r).map Prod.snd).Nodup :=
    ((sortedClusters_keys_perm r).nodup_iff).mpr hnd
  have hne : c0.2 ≠ c1.2 := by
    rw [hcl] at hknd
    simp only [List.map_cons, List.nodup_cons, List.mem_cons, List.mem_map] at hknd
    intro he
    exact hknd.1 (Or.inl he)
  obtain ⟨v0, hv0, hl0⟩ := mem_sortedClusters_lookup hnd hc0
  obtain ⟨v1, hv1, hl1⟩ := mem_sortedClusters_lookup hnd hc1
  have hv1r : (removeKey r c0.2).lookup c1.2 = some v1 := by
    rw [lookup_removeKey_ne r hne.symm]
    exact hv1
  refine ⟨v0, v1, hv0, hv1r, hl0, hl1, hne, ?_, ?_⟩
  · intro hcol
    rw [balanceStep_merge h]
    show doMerge r c0 c1 = Outcome.panic
    simp only [doMerge, hv0, hv1r, hcol]
    rw [if_pos trivial]
  · intro hfree
    rw [balanceStep_merge h]
    show doMerge r c0 c1 =
      Outcome.next (removeKey (removeKey r c0.2) c1.2 ++ [(c0.2 ++ "/" ++ c1.2, v0 ++ v1)])
    simp only [doMerge, hv0, hv1r, hfree]
    rw [if_neg (by simp)]

theorem split_shape {r : Registry} {cL : Nat × String} (hnd : NodupKeys r)
    (hm : mergeCand (sortedClusters r) = none)
    (hl : (sortedClusters r).getLast? = some cL) (hbig : cL.1 > 100) :
    ∃ v n1 n2,
      r.lookup cL.2 = some v ∧ v.length = cL.1 ∧
      n1 = findSuffix (removeKey r cL.2) cL.2 ((removeKey r cL.2).length + 1) 1 ∧
      n2 = findSuffix
            (removeKey r cL.2 ++ [(subKey cL.2 n1, (sortStrings v).take (cL.1 / 2))]) cL.2
            ((removeKey r cL.2 ++ [(subKey cL.2 n1, (sortStrings v).take (cL.1 / 2))]).length + 1)
            (n1 + 1) ∧
      balanceStep r =
        .next ((removeKey r cL.2 ++ [(subKey cL.2 n1, (sortStrings v).take (cL.1 / 2))]) ++
          [(subKey cL.2 n2, (sortStrings v).drop (cL.1 / 2))]) := by
  have hcL : cL ∈ sortedClusters r := List.mem_of_getLast?_eq_some hl
  obtain ⟨v, hv, hvl⟩ := mem_sortedClusters_lookup hnd hcL
  refine ⟨v, _, _, hv, hvl, rfl, rfl, ?_⟩
  rw [balanceStep_nomerge hm]
  unfold splitOrStop
  rw [hl]
  show (if cL.1 > 100 then doSplit r cL else Outcome.stop) = _
  rw [if_pos hbig]
  simp only [doSplit, hv]

/-! ### Injectivity of decimal key suffixes -/

theorem digitChar_toNat {d : Nat} (h : d < 10) : (Nat.digitChar d).toNat = d + 48 := by
  interval_cases d <;> rfl

theorem digitsVal_append (l : List Char) (c : Char) :
    digitsVal (l ++ [c]) = 10 * digitsVal l + (c.toNat - 48) := by
  unfold digitsVal
  rw [List.foldl_append]
  rfl

theorem toDigitsCore_append : ∀ (fuel : Nat), ∀ (n : Nat) (ds : List Char), n < fuel →
    Nat.toDigitsCore 10 fuel n ds = Nat.toDigitsCore 10 fuel n [] ++ ds := by
  intro fuel
  induction fuel with
  | zero =>
    intro n ds h
    omega
  | succ f ih =>
    intro n ds h
    simp only [Nat.toDigitsCore]
    by_cases h10 : n / 10 = 0
    · rw [if_pos h10, if_pos h10]
      rfl
    · rw [if_neg h10, if_neg h10]
      have hlt : n / 10 < f := by
        have h2 : n / 10 < n := Nat.div_lt_self (by omega) (by omega)
        omega
      rw [ih (n / 10) (Nat.digitChar (n % 10) :: ds) hlt,
          ih (n / 10) [Nat.digitChar (n % 10)] hlt, List.append_assoc]
      rfl

theorem digitsVal_toDigitsCore : ∀ (fuel n : Nat), n < fuel →
    digitsVal (Nat.toDigitsCore 10 fuel n []) = n := by
  intro fuel
  induction fuel with
  | zero =>
    intro n h
    omega
  | succ f ih =>
    intro n h
    simp only [Nat.toDigitsCore]
    by_cases h10 : n / 10 = 0
    · rw [if_pos h10]
      have hn : n < 10 := by omega
      have hd : (Nat.digitChar (n % 10)).toNat = n % 10 + 48 :=
        digitChar_toNat (Nat.mod_lt n (by omega))
      unfold digitsVal
      simp only [List.foldl_cons, List.foldl_nil]
      omega
    · rw [if_neg h10]
      have hlt : n / 10 < f := by
        have h2 : n / 10 < n := Nat.div_lt_self (by omega) (by omega)
        omega
      rw [toDigitsCore_append f (n / 10) [Nat.digitChar (n % 10)] hlt, digitsVal_append,
          ih (n / 10) hlt]
      have hd : (Nat.digitChar (n % 10)).toNat = n % 10 + 48 :=
        digitChar_toNat (Nat.mod_lt n (by omega))
      omega

theorem natRepr_inj {a b : Nat} (h : Nat.repr a = Nat.repr b) : a = b := by
  have h2 : (Nat.toDigits 10 a).asString = (Nat.toDigits 10 b).asString := h
  have hd : Nat.toDigits 10 a = Nat.toDigits 10 b := congrArg String.data h2
  have hda : Nat.toDigitsCore 10 (a + 1) a [] = Nat.toDigitsCore 10 (b + 1) b [] := hd
  have ha := digitsVal_toDigitsCore (a + 1) a (Nat.lt_succ_self a)
  have hb := digitsVal_toDigitsCore (b + 1) b (Nat.lt_succ_self b)
  rw [← ha, ← hb, hda]

theorem subKey_inj {base : String} {m n : Nat} (h : subKey base m = subKey base n) : m = n := by
  unfold subKey at h
  have hd : (base ++ "_").data ++ (Nat.repr m).data = (base ++ "_").data ++ (Nat.repr n).data := by
    have h2 := congrArg String.data h
    simpa [String.data_append] using h2
  have h3 : (Nat.repr m).data = (Nat.repr n).data := List.append_cancel_left hd
  exact natRepr_inj (string_data_inj h3)

/-! ### Correctness of the suffix search -/

theorem findSuffix_spec (z : Registry) (base : String) :
    ∀ (fuel cur : Nat),
      (∃ m, cur ≤ m ∧ m < cur + fuel ∧ containsKey z (subKey base m) = false) →
      containsKey z (subKey base (findSuffix z base fuel cur)) = false ∧
      cur ≤ findSuffix z base fuel cur ∧
      ∀ m, cur ≤ m → m < findSuffix z base fuel cur → containsKey z (subKey base m) = true := by
  intro fuel
  induction fuel with
  | zero =>
    intro cur h
    obtain ⟨m, h1, h2, _⟩ := h
    omega
  | succ f ih =>
    intro cur h
    unfold findSuffix
    cases hc : containsKey z (subKey base cur)
    · rw [if_neg (by simp)]
      exact ⟨hc, Nat.le_refl cur, fun m h1 h2 => absurd (h1.trans_lt h2) (Nat.lt_irrefl cur)⟩
    · rw [if_pos rfl]
      have hwit : ∃ m2, cur + 1 ≤ m2 ∧ m2 < cur + 1 + f ∧
          containsKey z (subKey base m2) = false := by
        obtain ⟨m, h1, h2, h3⟩ := h
        have hne : cur ≠ m := by
          intro he
          rw [← he] at h3
          rw [hc] at h3
          cases h3
        exact ⟨m, by omega, by omega, h3⟩
      obtain ⟨ha, hb, hcm⟩ := ih (cur + 1) hwit
      refine ⟨ha, by omega, ?_⟩
      intro m h1 h2
      rcases Nat.eq_or_lt_of_le h1 with he | he
      · rw [← he]
        exact hc
      · exact hcm m he h2

theorem exists_free_suffix (z : Registry) (base : String) (cur : Nat) :
    ∃ m, cur ≤ m ∧ m < cur + (z.length + 1) ∧ containsKey z (subKey base m) = false := by
  by_contra hno
  push_neg at hno
  have hall : ∀ m, m ∈ List.range' cur (z.length + 1) → subKey base m ∈ keysOf z := by
    intro m hm
    have hr := List.mem_range'_1.mp hm
    have h2 := hno m hr.1 hr.2
    have h3 : containsKey z (subKey base m) = true := by
      cases h4 : containsKey z (subKey base m)
      · exact absurd h4 h2
      · rfl
    exact containsKey_iff_mem.mp h3
  have hnd : ((List.range' cur (z.length + 1)).map (subKey base)).Nodup := by
    refine List.Nodup.map ?_ (List.nodup_range' cur (z.length + 1))
    intro m n hmn
    exact subKey_inj hmn
  have hsub : ((List.range' cur (z.length + 1)).map (subKey base)) ⊆ keysOf z := by
    intro x hx
    rcases List.mem_map.mp hx with ⟨m, hm, he⟩
    rw [← he]
    exact hall m hm
  have hle := (List.subperm_of_subset hnd hsub).length_le
  have hlen : ((List.range' cur (z.length + 1)).map (subKey base)).length = z.length + 1 := by
    simp
  have hkl : (keysOf z).length = z.length := by
    simp [keysOf]
  omega

/-! ### What one `.next` step of the balancer looks like -/

theorem contents_single (k : String) (l : List String) : contents [(k, l)] = l := by
  simp [contents]

theorem excess_single (k : String) (l : List String) : excess [(k, l)] = l.length - 100 := by
  simp [excess]

theorem step_next_master {r r2 : Registry} (hnd : NodupKeys r) (h : balanceStep r = .next r2) :
    (∃ (c0 c1 : Nat × String) (v0 v1 : List String),
      r.lookup c0.2 = some v0 ∧ (removeKey r c0.2).lookup c1.2 = some v1 ∧
      v0.length = c0.1 ∧ v1.length = c1.1 ∧ c0.2 ≠ c1.2 ∧ c0.1 + c1.1 < 50 ∧
      containsKey (removeKey (removeKey r c0.2) c1.2) (c0.2 ++ "/" ++ c1.2) = false ∧
      r2 = removeKey (removeKey r c0.2) c1.2 ++ [(c0.2 ++ "/" ++ c1.2, v0 ++ v1)]) ∨
    (∃ (cL : Nat × String) (v : List String) (n1 n2 : Nat),
      r.lookup cL.2 = some v ∧ v.length = cL.1 ∧ cL.1 > 100 ∧
      containsKey (removeKey r cL.2) (subKey cL.2 n1) = false ∧ 1 ≤ n1 ∧
      containsKey
        (removeKey r cL.2 ++ [(subKey cL.2 n1, (sortStrings v).take (cL.1 / 2))])
        (subKey cL.2 n2) = false ∧ n1 + 1 ≤ n2 ∧
      r2 = (removeKey r cL.2 ++ [(subKey cL.2 n1, (sortStrings v).take (cL.1 / 2))]) ++
        [(subKey cL.2 n2, (sortStrings v).drop (cL.1 / 2))]) := by
  cases hmc : mergeCand (sortedClusters r) with
  | some cc =>
    left
    obtain ⟨v0, v1, hv0, hv1, hl0, hl1, hne, hpan, hnex⟩ := merge_shape hnd hmc
    have hsum := (mergeCand_eq_some hmc).1
    cases hcol : containsKey (removeKey (removeKey r cc.1.2) cc.2.2) (cc.1.2 ++ "/" ++ cc.2.2)
    · have hst := hnex hcol
      rw [h] at hst
      injection hst with he
      exact ⟨cc.1, cc.2, v0, v1, hv0, hv1, hl0, hl1, hne, hsum, hcol, he⟩
    · have hst := hpan hcol
      rw [h] at hst
      cases hst
  | none =>
    right
    rw [balanceStep_nomerge hmc] at h
    unfold splitOrStop at h
    cases hgl : (sortedClusters r).getLast? with
    | none =>
      rw [hgl] at h
      cases h
    | some cL =>
      rw [hgl] at h
      have h2 : (if cL.1 > 100 then doSplit r cL else Outcome.stop) = .next r2 := h
      by_cases hbig : cL.1 > 100
      · rw [if_pos hbig] at h2
        obtain ⟨v, n1, n2, hv, hvl, hn1, hn2, hstep⟩ := split_shape hnd hmc hgl hbig
        rw [balanceStep_nomerge hmc] at hstep
        unfold splitOrStop at hstep
        rw [hgl] at hstep
        have h3 : (if cL.1 > 100 then doSplit r cL else Outcome.stop) = _ := hstep
        rw [if_pos hbig] at h3
        have h4 := h3.symm.trans h2
        injection h4 with h5
        obtain ⟨hf1, hge1, _⟩ := findSuffix_spec (removeKey r cL.2) cL.2
          ((removeKey r cL.2).length + 1) 1
          (exists_free_suffix (removeKey r cL.2) cL.2 1)
        obtain ⟨hf2, hge2, _⟩ := findSuffix_spec
          (removeKey r cL.2 ++
            [(subKey cL.2 (findSuffix (removeKey r cL.2) cL.2 ((removeKey r cL.2).length + 1) 1),
              (sortStrings v).take (cL.1 / 2))]) cL.2
          ((removeKey r cL.2 ++
            [(subKey cL.2 (findSuffix (removeKey r cL.2) cL.2 ((removeKey r cL.2).length + 1) 1),
              (sortStrings v).take (cL.1 / 2))]).length + 1)
          ((findSuffix (removeKey r cL.2) cL.2 ((removeKey r cL.2).length + 1) 1) + 1)
          (exists_free_suffix _ cL.2 _)
        rw [← hn1] at hf1 hge1 hf2 hge2
        rw [← hn2] at hf2 hge2
        exact ⟨cL, v, n1, n2, hv, hvl, hbig, hf1, hge1, hf2, hge2, h5.symm⟩
      · rw [if_neg hbig] at h2
        cases h2

/-- A `.next` step of the balancer preserves the multiset of channel names. -/
theorem step_next_contents {r r2 : Registry} (hnd : NodupKeys r)
    (h : balanceStep r = .next r2) : (contents r2).Perm (contents r) := by
  rcases step_next_master hnd h with
    ⟨c0, c1, v0, v1, hv0, hv1, _, _, _, _, _, hr2⟩ |
    ⟨cL, v, n1, n2, hv, _, _, _, _, _, _, hr2⟩
  · have hnd1 : NodupKeys (removeKey r c0.2) := removeKey_nodup _ hnd
    have p1 : (contents r).Perm (v0 ++ contents (removeKey r c0.2)) := by
      have hp := contents_perm (remove_perm hnd hv0)
      rwa [contents_cons] at hp
    have p2 : (contents (removeKey r c0.2)).Perm
        (v1 ++ contents (removeKey (removeKey r c0.2) c1.2)) := by
      have hp := contents_perm (remove_perm hnd1 hv1)
      rwa [contents_cons] at hp
    rw [hr2, contents_append, contents_single]
    refine List.Perm.trans List.perm_append_comm ?_
    rw [List.append_assoc]
    exact List.Perm.trans (List.Perm.append_left v0 p2.symm) p1.symm
  · have p1 : (contents r).Perm (v ++ contents (removeKey r cL.2)) := by
      have hp := contents_perm (remove_perm hnd hv)
      rwa [contents_cons] at hp
    rw [hr2, contents_append, contents_append, contents_single, contents_single,
      List.append_assoc, List.take_append_drop]
    exact List.Perm.trans (List.Perm.append_left _ (List.perm_insertionSort strLE v))
      (List.Perm.trans List.perm_append_comm p1.symm)

/-- A `.next` step of the balancer preserves distinctness of the zone keys. -/
theorem step_next_nodup {r r2 : Registry} (hnd : NodupKeys r)
    (h : balanceStep r = .next r2) : NodupKeys r2 := by
  rcases step_next_master hnd h with
    ⟨c0, c1, v0, v1, _, _, _, _, _, _, hfree, hr2⟩ |
    ⟨cL, v, n1, n2, _, _, _, hf1, _, hf2, _, hr2⟩
  · rw [hr2]
    exact nodupKeys_append_single (removeKey_nodup _ (removeKey_nodup _ hnd))
      (containsKey_eq_false_iff.mp hfree)
  · rw [hr2]
    have hz2 : NodupKeys
        (removeKey r cL.2 ++ [(subKey cL.2 n1, (sortStrings v).take (cL.1 / 2))]) :=
      nodupKeys_append_single (removeKey_nodup _ hnd) (containsKey_eq_false_iff.mp hf1)
    exact nodupKeys_append_single hz2 (containsKey_eq_false_iff.mp hf2)

/-- A `.next` step of the balancer strictly decreases the termination measure. -/
theorem step_next_measure {r r2 : Registry} (hnd : NodupKeys r)
    (h : balanceStep r = .next r2) : balMeasure r2 < balMeasure r := by
  rcases step_next_master hnd h with
    ⟨c0, c1, v0, v1, hv0, hv1, hl0, hl1, _, hsum, _, hr2⟩ |
    ⟨cL, v, n1, n2, hv, hvl, hbig, _, _, _, _, hr2⟩
  · have hnd1 : NodupKeys (removeKey r c0.2) := removeKey_nodup _ hnd
    have e1 : excess r = (v0.length - 100) + excess (removeKey r c0.2) := by
      have hp := excess_perm (remove_perm hnd hv0)
      rwa [excess_cons] at hp
    have e2 : excess (removeKey r c0.2) =
        (v1.length - 100) + excess (removeKey (removeKey r c0.2) c1.2) := by
      have hp := excess_perm (remove_perm hnd1 hv1)
      rwa [excess_cons] at hp
    have l1 : r.length = (removeKey r c0.2).length + 1 :=
      (remove_perm hnd hv0).length_eq
    have l2 : (removeKey r c0.2).length = (removeKey (removeKey r c0.2) c1.2).length + 1 :=
      (remove_perm hnd1 hv1).length_eq
    have e3 : excess r2 = excess (removeKey (removeKey r c0.2) c1.2) +
        ((v0.length + v1.length) - 100) := by
      rw [hr2, excess_append, excess_single, List.length_append]
    have l3 : r2.length = (removeKey (removeKey r c0.2) c1.2).length + 1 := by
      rw [hr2]
      simp
    unfold balMeasure
    omega
  · have e1 : excess r = (v.length - 100) + excess (removeKey r cL.2) := by
      have hp := excess_perm (remove_perm hnd hv)
      rwa [excess_cons] at hp
    have l1 : r.length = (removeKey r cL.2).length + 1 :=
      (remove_perm hnd hv).length_eq
    have hsl : (sortStrings v).length = v.length :=
      (List.perm_insertionSort strLE v).length_eq
    have e3 : excess r2 = excess (removeKey r cL.2) +
        (((sortStrings v).take (cL.1 / 2)).length - 100) +
        (((sortStrings v).drop (cL.1 / 2)).length - 100) := by
      rw [hr2, excess_append, excess_append, excess_single, excess_single]
    have l3 : r2.length = (removeKey r cL.2).length + 2 := by
      rw [hr2]
      simp
    rw [List.length_take, List.length_drop, hsl, hvl] at e3
    unfold balMeasure
    omega

/-- A `.next` step of the balancer keeps every zone's channel list non-empty. -/
theorem step_next_nonempty {r r2 : Registry} (hnd : NodupKeys r)
    (h : balanceStep r = .next r2) (hne : ∀ kv ∈ r, kv.2 ≠ ([] : List String)) :
    ∀ kv ∈ r2, kv.2 ≠ ([] : List String) := by
  have hsub : ∀ (z : Registry) (k : String) (kv : String × List String),
      kv ∈ removeKey z k → kv ∈ z := by
    intro z k kv hm
    exact (List.mem_filter.mp hm).1
  rcases step_next_master hnd h with
    ⟨c0, c1, v0, v1, hv0, hv1, _, _, _, _, _, hr2⟩ |
    ⟨cL, v, n1, n2, hv, hvl, hbig, _, _, _, _, hr2⟩
  · intro kv hm
    rw [hr2] at hm
    rcases List.mem_append.mp hm with hm | hm
    · exact hne kv (hsub _ _ _ (hsub _ _ _ hm))
    · have he : kv = (c0.2 ++ "/" ++ c1.2, v0 ++ v1) := List.mem_singleton.mp hm
      rw [he]
      have hv0ne : v0 ≠ [] := hne (c0.2, v0) (lookup_mem hv0)
      intro hc
      exact hv0ne (List.append_eq_nil.mp hc).1
  · intro kv hm
    rw [hr2] at hm
    have hsl : (sortStrings v).length = v.length :=
      (List.perm_insertionSort strLE v).length_eq
    rcases List.mem_append.mp hm with hm | hm
    · rcases List.mem_append.mp hm with hm | hm
      · exact hne kv (hsub _ _ _ hm)
      · have he : kv = (subKey cL.2 n1, (sortStrings v).take (cL.1 / 2)) :=
          List.mem_singleton.mp hm
        rw [he]
        intro hc
        have hl := congrArg List.length hc
        rw [List.length_take, hsl, hvl] at hl
        simp at hl
        omega
    · have he : kv = (subKey cL.2 n2, (sortStrings v).drop (cL.1 / 2)) :=
        List.mem_singleton.mp hm
      rw [he]
      intro hc
      have hl := congrArg List.length hc
      rw [List.length_drop, hsl, hvl] at hl
      simp at hl
      omega

/-! ### The balancer loop -/

theorem balanceLoop_ok_invariant : ∀ (n : Nat) {r r2 : Registry}, NodupKeys r →
    balanceLoop n r = .ok r2 → (contents r2).Perm (contents r) ∧ NodupKeys r2 := by
  intro n
  induction n with
  | zero =>
    intro r r2 _ h
    cases h
  | succ m ih =>
    intro r r2 hnd h
    unfold balanceLoop at h
    cases hs : balanceStep r with
    | stop =>
      rw [hs] at h
      injection h with he
      subst he
      exact ⟨List.Perm.refl _, hnd⟩
    | panic =>
      rw [hs] at h
      cases h
    | next r3 =>
      rw [hs] at h
      obtain ⟨hp, hnd3⟩ := ih (step_next_nodup hnd hs) h
      exact ⟨hp.trans (step_next_contents hnd hs), hnd3⟩

theorem balanceLoop_ok_nonempty : ∀ (n : Nat) {r r2 : Registry}, NodupKeys r →
    (∀ kv ∈ r, kv.2 ≠ ([] : List String)) →
    balanceLoop n r = .ok r2 → ∀ kv ∈ r2, kv.2 ≠ ([] : List String) := by
  intro n
  induction n with
  | zero =>
    intro r r2 _ _ h
    cases h
  | succ m ih =>
    intro r r2 hnd hne h
    unfold balanceLoop at h
    cases hs : balanceStep r with
    | stop =>
      rw [hs] at h
      injection h with he
      subst he
      exact hne
    | panic =>
      rw [hs] at h
      cases h
    | next r3 =>
      rw [hs] at h
      exact ih (step_next_nodup hnd hs) (step_next_nonempty hnd hs hne) h

theorem balance_terminates_aux : ∀ (N : Nat) (r : Registry), NodupKeys r → balMeasure r < N →
    ∃ n, balanceLoop n r ≠ .fuelOut := by
  intro N
  induction N with
  | zero =>
    intro r _ h
    omega
  | succ M ih =>
    intro r hnd hm
    cases hs : balanceStep r with
    | stop =>
      refine ⟨1, ?_⟩
      simp [balanceLoop, hs]
    | panic =>
      refine ⟨1, ?_⟩
      simp [balanceLoop, hs]
    | next r3 =>
      obtain ⟨n, hn⟩ := ih r3 (step_next_nodup hnd hs)
        (by have := step_next_measure hnd hs; omega)
      refine ⟨n + 1, ?_⟩
      unfold balanceLoop
      rw [hs]
      exact hn

/-- The balancer loop always ends, in a fixed point or a panic, for every
registry with distinct keys. -/
theorem balance_terminates {r : Registry} (hnd : NodupKeys r) :
    ∃ n, balanceLoop n r ≠ .fuelOut :=
  balance_terminates_aux (balMeasure r + 1) r hnd (Nat.lt_succ_self _)

/-! ### Grouping lemmas -/

theorem addToZone_contents : ∀ {z : Registry}, NodupKeys z → ∀ (k name : String),
    (contents (addToZone z k name)).Perm (contents z ++ [name])
  | [], _, k, name => by simp [addToZone, contents]
  | (k2, v2) :: rest, hnd, k, name => by
    unfold addToZone
    by_cases hk : k = k2
    · subst hk
      rw [if_pos (by rw [lookup_cons_eq]; rfl)]
      have hrest : rest.map (fun kv => if kv.1 = k then (kv.1, kv.2 ++ [name]) else kv) =
          rest := by
        have h1 : rest.map (fun kv => if kv.1 = k then (kv.1, kv.2 ++ [name]) else kv) =
            rest.map id := by
          apply List.map_congr_left
          intro kv hm
          rw [if_neg]
          · rfl
          · intro he
            exact (List.nodup_cons.mp hnd).1 (List.mem_map.mpr ⟨kv, hm, he⟩)
        rw [h1, List.map_id]
      rw [List.map_cons, if_pos rfl, hrest]
      show ((v2 ++ [name]) ++ contents rest).Perm ((v2 ++ contents rest) ++ [name])
      rw [List.append_assoc, List.append_assoc]
      exact List.Perm.append_left v2 List.perm_append_comm
    · have hlc : ((k2, v2) :: rest).lookup k = rest.lookup k := lookup_cons_ne _ _ hk
      have hnd2 : NodupKeys rest := (List.nodup_cons.mp hnd).2
      cases hl : rest.lookup k with
      | none =>
        rw [if_neg (by rw [hlc, hl]; exact fun hc => by cases hc)]
        rw [contents_append, contents_single]
      | some v =>
        rw [if_pos (by rw [hlc, hl]; rfl)]
        have ih := addToZone_contents hnd2 k name
        rw [addToZone, if_pos (by rw [hl]; rfl)] at ih
        rw [List.map_cons, if_neg (show ¬((k2, v2).1 = k) from fun he => hk he.symm)]
        show (v2 ++
            contents (rest.map (fun kv => if kv.1 = k then (kv.1, kv.2 ++ [name]) else kv))).Perm
          ((v2 ++ contents rest) ++ [name])
        rw [List.append_assoc]
        exact List.Perm.append_left v2 ih

theorem addToZone_nodup : ∀ {z : Registry}, NodupKeys z → ∀ (k name : String),
    NodupKeys (addToZone z k name) := by
  intro z hnd k name
  unfold addToZone
  cases hl : z.lookup k with
  | none =>
    rw [if_neg (by simp)]
    exact nodupKeys_append_single hnd (lookup_none_iff.mp hl)
  | some v =>
    rw [if_pos (by rfl)]
    have hkeys : keysOf (z.map (fun kv => if kv.1 = k then (kv.1, kv.2 ++ [name]) else kv)) =
        keysOf z := by
      unfold keysOf
      rw [List.map_map]
      apply List.map_congr_left
      intro kv _
      by_cases h : kv.1 = k
      · simp [h]
      · simp [h]
    unfold NodupKeys
    rw [hkeys]
    exact hnd

theorem addToZone_nonempty {z : Registry} (hne : ∀ kv ∈ z, kv.2 ≠ ([] : List String))
    (k name : String) : ∀ kv ∈ addToZone z k name, kv.2 ≠ ([] : List String) := by
  unfold addToZone
  cases hl : z.lookup k with
  | none =>
    rw [if_neg (by simp)]
    intro kv hm
    rcases List.mem_append.mp hm with hm | hm
    · exact hne kv hm
    · have he : kv = (k, [name]) := List.mem_singleton.mp hm
      rw [he]
      exact fun hc => by cases hc
  | some v =>
    rw [if_pos (by rfl)]
    intro kv hm
    rcases List.mem_map.mp hm with ⟨kv2, hm2, he⟩
    by_cases h : kv2.1 = k
    · rw [if_pos h] at he
      rw [← he]
      simp
    · rw [if_neg h] at he
      rw [← he]
      exact hne kv2 hm2

theorem addToZone_ne_nil (z : Registry) (k name : String) : addToZone z k name ≠ [] := by
  unfold addToZone
  cases hl : z.lookup k with
  | none =>
    rw [if_neg (by simp)]
    simp
  | some v =>
    rw [if_pos (by rfl)]
    intro hc
    rw [List.map_eq_nil_iff] at hc
    rw [hc] at hl
    cases hl

theorem buildZones_aux : ∀ (chs : List Chan) (z : Registry), NodupKeys z →
    NodupKeys (chs.foldl (fun z ch => addToZone z (zoneKeyOf ch.group_id) ch.name) z) ∧
    (contents (chs.foldl (fun z ch => addToZone z (zoneKeyOf ch.group_id) ch.name) z)).Perm
      (contents z ++ chs.map Chan.name) := by
  intro chs
  induction chs with
  | nil =>
    intro z hnd
    exact ⟨hnd, by simp⟩
  | cons ch rest ih =>
    intro z hnd
    simp only [List.foldl_cons]
    obtain ⟨hnd2, hp⟩ := ih (addToZone z (zoneKeyOf ch.group_id) ch.name)
      (addToZone_nodup hnd _ _)
    refine ⟨hnd2, ?_⟩
    refine hp.trans ?_
    refine List.Perm.trans (List.Perm.append_right _ (addToZone_contents hnd _ _)) ?_
    rw [List.append_assoc]
    simp

theorem buildZones_nodup (chs : List Chan) : NodupKeys (buildZones chs) :=
  (buildZones_aux chs [] (by exact List.nodup_nil)).1

theorem buildZones_contents (chs : List Chan) :
    (contents (buildZones chs)).Perm (chs.map Chan.name) := by
  have h := (buildZones_aux chs [] (by exact List.nodup_nil)).2
  simpa [contents] using h

theorem buildZones_nonempty (chs : List Chan) :
    ∀ kv ∈ buildZones chs, kv.2 ≠ ([] : List String) := by
  unfold buildZones
  have hgen : ∀ (l : List Chan) (z : Registry), (∀ kv ∈ z, kv.2 ≠ ([] : List String)) →
      ∀ kv ∈ l.foldl (fun z ch => addToZone z (zoneKeyOf ch.group_id) ch.name) z,
        kv.2 ≠ ([] : List String) := by
    intro l
    induction l with
    | nil => intro z hz; exact hz
    | cons ch rest ih =>
      intro z hz
      simp only [List.foldl_cons]
      exact ih _ (addToZone_nonempty hz _ _)
  exact hgen chs [] (by intro kv hm; cases hm)

theorem buildZones_ne_nil {chs : List Chan} (h : chs ≠ []) : buildZones chs ≠ [] := by
  unfold buildZones
  have hgen : ∀ (l : List Chan) (z : Registry), z ≠ [] →
      l.foldl (fun z ch => addToZone z (zoneKeyOf ch.group_id) ch.name) z ≠ [] := by
    intro l
    induction l with
    | nil => intro z hz; exact hz
    | cons ch rest ih =>
      intro z _
      simp only [List.foldl_cons]
      exact ih _ (addToZone_ne_nil _ _ _)
  cases chs with
  | nil => exact absurd rfl h
  | cons ch rest =>
    simp only [List.foldl_cons]
    exact hgen rest _ (addToZone_ne_nil _ _ _)

/-! ### Serializer lemmas -/

theorem sortStrings_perm (l : List String) : (sortStrings l).Perm l :=
  List.perm_insertionSort strLE l

theorem rowsAux_some : ∀ (ks : List String) (z : Registry) (i : Nat),
    ks.Nodup → (∀ k ∈ ks, k ∈ keysOf z) → NodupKeys z →
    (∀ kv ∈ z, kv.2 ≠ ([] : List String)) →
    ∃ rows, rowsAux z ks i = some rows
  | [], z, i, _, _, _, _ => ⟨[], rfl⟩
  | k :: rest, z, i, hnd, hks, hznd, hne => by
    obtain ⟨v, hv⟩ := lookup_of_mem_keys (hks k (List.mem_cons_self _ _))
    have hvne : v ≠ [] := hne (k, v) (lookup_mem hv)
    have hsne : sortStrings v ≠ [] := by
      intro hc
      have hl := (sortStrings_perm v).length_eq
      rw [hc] at hl
      exact hvne (List.length_eq_zero.mp hl.symm)
    have hrec : ∃ rows2, rowsAux (removeKey z k) rest (i + 1) = some rows2 := by
      apply rowsAux_some rest (removeKey z k) (i + 1) (List.nodup_cons.mp hnd).2
      · intro k2 hk2
        have hne2 : k2 ≠ k := by
          intro he
          exact (List.nodup_cons.mp hnd).1 (he ▸ hk2)
        exact (mem_keysOf_removeKey hne2).mpr (hks k2 (List.mem_cons_of_mem _ hk2))
      · exact removeKey_nodup _ hznd
      · intro kv hm
        exact hne kv (List.mem_filter.mp hm).1
    obtain ⟨rows2, hrows2⟩ := hrec
    cases hs : sortStrings v with
    | nil => exact absurd hs hsne
    | cons a t =>
      refine ⟨⟨i + 1, k, a :: t, a, (a :: t).getLast (List.cons_ne_nil a t)⟩ :: rows2, ?_⟩
      simp only [rowsAux, hv, hs, hrows2]

theorem rowsAux_contents : ∀ (ks : List String) (z : Registry) (i : Nat) (rows : List ZoneRow),
    NodupKeys z → ks.Nodup → (keysOf z).Perm ks →
    rowsAux z ks i = some rows →
    (rows.flatMap ZoneRow.chans).Perm (contents z)
  | [], z, _, rows, _, _, hkp, h => by
    have hz : z = [] := by
      have hk : keysOf z = [] := List.Perm.eq_nil hkp
      unfold keysOf at hk
      exact List.map_eq_nil_iff.mp hk
    subst hz
    injection h with he
    rw [← he]
    exact List.Perm.refl _
  | k :: rest, z, i, rows, hznd, hnd, hkp, h => by
    have hk : k ∈ keysOf z := hkp.mem_iff.mpr (List.mem_cons_self _ _)
    obtain ⟨v, hv⟩ := lookup_of_mem_keys hk
    cases hs : sortStrings v with
    | nil =>
      simp only [rowsAux, hv, hs] at h
      cases h
    | cons a t =>
      cases hrec : rowsAux (removeKey z k) rest (i + 1) with
      | none =>
        simp only [rowsAux, hv, hs, hrec] at h
        cases h
      | some rows2 =>
        simp only [rowsAux, hv, hs, hrec, Option.some.injEq] at h
        have he := h
        have hkp2 : (keysOf (removeKey z k)).Perm rest := by
          rw [keysOf_removeKey]
          have hp := hkp.filter (fun a => a != k)
          rw [List.filter_cons] at hp
          rw [bne_self_eq_false] at hp
          simp only [Bool.false_eq_true, if_false] at hp
          have hfr : List.filter (fun a => a != k) rest = rest :=
            List.filter_eq_self.mpr (fun a ha => bne_iff_ne.mpr
              (fun hc => (List.nodup_cons.mp hnd).1 (by rw [← hc]; exact ha)))
          rwa [hfr] at hp
        have ih := rowsAux_contents rest (removeKey z k) (i + 1) rows2
          (removeKey_nodup _ hznd) (List.nodup_cons.mp hnd).2 hkp2 hrec
        have p1 : (contents z).Perm (v ++ contents (removeKey z k)) := by
          have hp := contents_perm (remove_perm hznd hv)
          rwa [contents_cons] at hp
        have s1 : (a :: t).Perm v := by
          rw [← hs]
          exact sortStrings_perm v
        rw [← he]
        show ((a :: t) ++ rows2.flatMap ZoneRow.chans).Perm (contents z)
        exact (List.Perm.append s1 ih).trans p1.symm

/-- The serializer succeeds on every registry with distinct keys and non-empty
zone lists (the accesses `chans[0]` and `chans[chans.len() - 1]` are in
bounds). -/
theorem writeZones_some {z : Registry} (hnd : NodupKeys z)
    (hne : ∀ kv ∈ z, kv.2 ≠ ([] : List String)) : ∃ rows, writeZones z = some rows := by
  apply rowsAux_some
  · exact ((sortStrings_perm (keysOf z)).nodup_iff).mpr hnd
  · intro k hk
    exact (sortStrings_perm (keysOf z)).mem_iff.mp hk
  · exact hnd
  · exact hne

/-- The serializer emits exactly the channels of the registry. -/
theorem writeZones_contents {z : Registry} {rows : List ZoneRow} (hnd : NodupKeys z)
    (h : writeZones z = some rows) :
    (rows.flatMap ZoneRow.chans).Perm (contents z) :=
  rowsAux_contents _ _ _ _ hnd (((sortStrings_perm (keysOf z)).nodup_iff).mpr hnd)
    (sortStrings_perm (keysOf z)).symm h

/-! ### Contact-table lemmas -/

theorem contactStep_table (groups : List (Nat × String)) (ch : Chan) :
    (contactStep groups ch).1 =
      match chanId ch with
      | some n =>
        match groups.lookup n with
        | some _ => groups
        | none => groups ++ [(n, ch.group_id)]
      | none => groups := by
  unfold contactStep chanId
  by_cases hg : ch.group_id ≠ ""
  · rw [if_pos hg, if_pos hg]
    cases parseU32 (firstTok ch.group_id) with
    | none => rfl
    | some n =>
      cases hl : groups.lookup n with
      | none => simp only [hl]
      | some lbl => simp only [hl]
  · rw [if_neg hg, if_neg hg]

theorem contactStep_label (groups : List (Nat × String)) (ch : Chan) :
    (contactStep groups ch).2 =
      match chanId ch with
      | some n =>
        match groups.lookup n with
        | some lbl => lbl
        | none => ch.group_id
      | none => "" := by
  unfold contactStep chanId
  by_cases hg : ch.group_id ≠ ""
  · rw [if_pos hg, if_pos hg]
    cases parseU32 (firstTok ch.group_id) with
    | none => rfl
    | some n =>
      cases hl : groups.lookup n with
      | none => simp only [hl]
      | some lbl => simp only [hl]
  · rw [if_neg hg, if_neg hg]

theorem contactsAux_lookup : ∀ (chs : List Chan) (groups : List (Nat × String)) (n : Nat),
    (contactsAux groups chs).1.lookup n =
      match groups.lookup n with
      | some lbl => some lbl
      | none => (chs.find? (fun c => chanId c == some n)).map Chan.group_id
  | [], groups, n => by
    show groups.lookup n = _
    cases hl : groups.lookup n with
    | none => rfl
    | some lbl => rfl
  | ch :: rest, groups, n => by
    show (contactsAux (contactStep groups ch).1 rest).1.lookup n = _
    rw [contactsAux_lookup rest (contactStep groups ch).1 n, contactStep_table]
    cases hid : chanId ch with
    | none =>
      rw [@List.find?_cons_of_neg Chan (fun c => chanId c == some n) ch rest (by simp [hid])]
    | some m =>
      by_cases hmn : m = n
      · subst hmn
        rw [@List.find?_cons_of_pos Chan (fun c => chanId c == some m) ch rest (by simp [hid])]
        cases hgl : groups.lookup m with
        | some lbl => simp [hgl]
        | none => simp [hgl, lookup_append, lookup_cons_eq]
      · rw [@List.find?_cons_of_neg Chan (fun c => chanId c == some n) ch rest
          (by simp [hid, hmn])]
        cases hgm : groups.lookup m with
        | some lbl => simp [hgm]
        | none =>
          cases hgn : groups.lookup n with
          | some lbl => simp [hgm, hgn, lookup_append]
          | none =>
            simp [hgm, hgn, lookup_append, lookup_cons_ne _ _ (Ne.symm hmn), List.lookup_nil]

theorem contactTable_lookup (chs : List Chan) (n : Nat) :
    (contactTable chs).lookup n =
      (chs.find? (fun c => chanId c == some n)).map Chan.group_id := by
  unfold contactTable
  rw [contactsAux_lookup]
  rfl

theorem contactsAux_table_extends : ∀ (chs : List Chan) (groups : List (Nat × String)),
    ∃ t, (contactsAux groups chs).1 = groups ++ t
  | [], groups => ⟨[], by simp [contactsAux]⟩
  | ch :: rest, groups => by
    obtain ⟨t, ht⟩ := contactsAux_table_extends rest (contactStep groups ch).1
    have hstep : (contactsAux groups (ch :: rest)).1 =
        (contactsAux (contactStep groups ch).1 rest).1 := rfl
    rw [hstep, ht, contactStep_table]
    cases hid : chanId ch with
    | none => exact ⟨t, by simp⟩
    | some m =>
      cases hgl : groups.lookup m with
      | some lbl => exact ⟨t, by simp [hgl]⟩
      | none => exact ⟨(m, ch.group_id) :: t, by simp [hgl]⟩

theorem contactsAux_append_table : ∀ (l1 l2 : List Chan) (groups : List (Nat × String)),
    (contactsAux groups (l1 ++ l2)).1 = (contactsAux (contactsAux groups l1).1 l2).1
  | [], l2, groups => rfl
  | ch :: rest, l2, groups => by
    show (contactsAux (contactStep groups ch).1 (rest ++ l2)).1 = _
    rw [contactsAux_append_table rest l2 (contactStep groups ch).1]
    rfl

/-- Processing more channels only appends to the contact table. -/
theorem contactTable_grows (l1 l2 : List Chan) :
    ∃ t, contactTable (l1 ++ l2) = contactTable l1 ++ t := by
  unfold contactTable
  rw [contactsAux_append_table]
  exact contactsAux_table_extends l2 (contactsAux [] l1).1

theorem contactsAux_labels_gen : ∀ (rest : List Chan) (groups : List (Nat × String))
    (seen : List Chan),
    (∀ m, groups.lookup m = (seen.find? (fun c => chanId c == some m)).map Chan.group_id) →
    ∀ (i : Nat) (ch : Chan) (n : Nat), rest[i]? = some ch → chanId ch = some n →
      ((contactsAux groups rest).2)[i]? =
        ((seen ++ rest).find? (fun c => chanId c == some n)).map Chan.group_id
  | [], _, _, _, i, ch, n, hi, _ => by cases i <;> cases hi
  | ch0 :: rest', groups, seen, hinv, i, ch, n, hi, hn => by
    have hstep2 : ((contactsAux groups (ch0 :: rest')).2) =
        (contactStep groups ch0).2 :: (contactsAux (contactStep groups ch0).1 rest').2 := rfl
    rw [hstep2]
    cases i with
    | zero =>
      rw [List.getElem?_cons_zero] at hi
      injection hi with hi
      subst hi
      rw [List.getElem?_cons_zero]
      simp only [contactStep_label, hn]
      rw [List.find?_append]
      cases hfs : seen.find? (fun c => chanId c == some n) with
      | some c0 =>
        have hg : groups.lookup n = some c0.group_id := by
          rw [hinv n, hfs]
          rfl
        rw [hg]
        rfl
      | none =>
        have hg : groups.lookup n = none := by
          rw [hinv n, hfs]
          rfl
        rw [hg]
        rw [@List.find?_cons_of_pos Chan (fun c => chanId c == some n) ch0 rest'
          (by simp [hn])]
        rfl
    | succ j =>
      rw [List.getElem?_cons_succ] at hi
      rw [List.getElem?_cons_succ]
      have hinv2 : ∀ m, (contactStep groups ch0).1.lookup m =
          ((seen ++ [ch0]).find? (fun c => chanId c == some m)).map Chan.group_id := by
        intro m
        rw [contactStep_table, List.find?_append]
        cases hid0 : chanId ch0 with
        | none =>
          rw [show List.find? (fun c => chanId c == some m) [ch0] = none from by
            rw [@List.find?_cons_of_neg Chan (fun c => chanId c == some m) ch0 []
              (by simp [hid0])]
            rfl]
          rw [Option.or_none]
          exact hinv m
        | some m0 =>
          by_cases hmm : m0 = m
          · subst hmm
            rw [show List.find? (fun c => chanId c == some m0) [ch0] = some ch0 from
              @List.find?_cons_of_pos Chan (fun c => chanId c == some m0) ch0 []
                (by simp [hid0])]
            cases hgl : groups.lookup m0 with
            | some lbl =>
              simp only [hgl]
              cases hfs : seen.find? (fun c => chanId c == some m0) with
              | none =>
                rw [hinv m0, hfs] at hgl
                cases hgl
              | some c0 =>
                rw [hinv m0, hfs] at hgl
                exact hgl.symm
            | none =>
              have hfs : seen.find? (fun c => chanId c == some m0) = none := by
                cases hfs2 : seen.find? (fun c => chanId c == some m0) with
                | none => rfl
                | some c0 =>
                  rw [hinv m0, hfs2] at hgl
                  cases hgl
              simp only [hgl, lookup_append, hgl, lookup_cons_eq]
              rw [hfs]
              rfl
          · rw [show List.find? (fun c => chanId c == some m) [ch0] = none from by
              rw [@List.find?_cons_of_neg Chan (fun c => chanId c == some m) ch0 []
                (by simp [hid0, hmm])]
              rfl]
            rw [Option.or_none]
            cases hgl : groups.lookup m0 with
            | some lbl =>
              simp only [hgl]
              exact hinv m
            | none =>
              simp only [hgl, lookup_append]
              rw [lookup_cons_ne _ _ (Ne.symm hmm), List.lookup_nil]
              rw [hinv m]
              cases hfs : seen.find? (fun c => chanId c == some m) with
              | none => rfl
              | some c0 => rfl
      have ih := contactsAux_labels_gen rest' (contactStep groups ch0).1 (seen ++ [ch0])
        hinv2 j ch n hi hn
      rw [ih, List.append_assoc]
      rfl

theorem contactLabels_spec (chs : List Chan) (i : Nat) (ch : Chan) (n : Nat)
    (hi : chs[i]? = some ch) (hn : chanId ch = some n) :
    (contactLabels chs)[i]? =
      (chs.find? (fun c => chanId c == some n)).map Chan.group_id := by
  unfold contactLabels
  have h := contactsAux_labels_gen chs [] [] (fun m => rfl) i ch n hi hn
  rw [h]
  rfl


/-! ### Independence from the hash map's iteration order

Two runs of the program only differ in the iteration order of the hash maps;
the registry of one run is a permutation, as an association list, of the
registry of the other. -/

theorem lookup_perm_eq {r1 r2 : Registry} (hp : r1.Perm r2) :
    NodupKeys r1 → ∀ k, r1.lookup k = r2.lookup k := by
  induction hp with
  | nil =>
    intro _ k
    rfl
  | cons x hp2 ih =>
    intro hnd k
    rcases x with ⟨kx, vx⟩
    by_cases hk : k = kx
    · subst hk
      rw [lookup_cons_eq, lookup_cons_eq]
    · rw [lookup_cons_ne _ _ hk, lookup_cons_ne _ _ hk]
      exact ih (List.nodup_cons.mp hnd).2 k
  | swap x y l =>
    intro hnd k
    rcases x with ⟨a, va⟩
    rcases y with ⟨b, vb⟩
    have hab : b ≠ a := by
      intro he
      exact (List.nodup_cons.mp hnd).1 (he ▸ List.mem_cons_self _ _)
    by_cases h1 : k = b
    · subst h1
      rw [lookup_cons_eq, lookup_cons_ne _ _ hab, lookup_cons_eq]
    · rw [lookup_cons_ne _ _ h1]
      by_cases h2 : k = a
      · subst h2
        rw [lookup_cons_eq, lookup_cons_eq]
      · rw [lookup_cons_ne _ _ h2, lookup_cons_ne _ _ h2, lookup_cons_ne _ _ h1]
  | trans hp1 hp2 ih1 ih2 =>
    intro hnd k
    exact (ih1 hnd k).trans (ih2 (nodupKeys_perm hp1 hnd) k)

theorem sortedClusters_perm_eq {r1 r2 : Registry} (hp : r1.Perm r2) :
    sortedClusters r1 = sortedClusters r2 := by
  apply List.eq_of_perm_of_sorted (r := pairLE)
  · exact (sortedClusters_perm r1).trans ((hp.map _).trans (sortedClusters_perm r2).symm)
  · exact sortedClusters_sorted r1
  · exact sortedClusters_sorted r2

theorem lookup_removeKey (r : Registry) (kk k : String) :
    (removeKey r kk).lookup k = if k = kk then none else r.lookup k := by
  by_cases h : k = kk
  · subst h
    rw [if_pos rfl]
    exact lookup_none_iff.mpr (not_mem_keysOf_removeKey r k)
  · rw [if_neg h]
    exact lookup_removeKey_ne r h

theorem lookup_append_congr {z1 z2 : Registry}
    (h : ∀ k, z1.lookup k = z2.lookup k) (e : String × List String) :
    ∀ k, (z1 ++ [e]).lookup k = (z2 ++ [e]).lookup k := by
  intro k
  rw [lookup_append, lookup_append, h k]

theorem lookup_removeKey_congr {z1 z2 : Registry}
    (h : ∀ k, z1.lookup k = z2.lookup k) (kk : String) :
    ∀ k, (removeKey z1 kk).lookup k = (removeKey z2 kk).lookup k := by
  intro k
  rw [lookup_removeKey, lookup_removeKey, h k]

theorem containsKey_congr {z1 z2 : Registry}
    (h : ∀ k, z1.lookup k = z2.lookup k) (k : String) :
    containsKey z1 k = containsKey z2 k := by
  unfold containsKey
  rw [h k]

theorem findSuffix_congr {z1 z2 : Registry}
    (h : ∀ k, z1.lookup k = z2.lookup k) (base : String) :
    ∀ fuel cur, findSuffix z1 base fuel cur = findSuffix z2 base fuel cur := by
  intro fuel
  induction fuel with
  | zero =>
    intro cur
    rfl
  | succ f ih =>
    intro cur
    unfold findSuffix
    rw [containsKey_congr h (subKey base cur)]
    cases containsKey z2 (subKey base cur)
    · rfl
    · exact ih (cur + 1)

theorem doMerge_eval (zones : Registry) (c0 c1 : Nat × String) :
    doMerge zones c0 c1 =
      match zones.lookup c0.2 with
      | none => .panic
      | some head =>
        match (removeKey zones c0.2).lookup c1.2 with
        | none => .panic
        | some tail =>
          if containsKey (removeKey (removeKey zones c0.2) c1.2) (c0.2 ++ "/" ++ c1.2)
          then .panic
          else .next (removeKey (removeKey zones c0.2) c1.2 ++
            [(c0.2 ++ "/" ++ c1.2, head ++ tail)]) := rfl

theorem doSplit_eval (zones : Registry) (cl : Nat × String) :
    doSplit zones cl =
      match zones.lookup cl.2 with
      | none => .panic
      | some v =>
        .next ((removeKey zones cl.2 ++
            [(subKey cl.2
                (findSuffix (removeKey zones cl.2) cl.2 ((removeKey zones cl.2).length + 1) 1),
              (sortStrings v).take (cl.1 / 2))]) ++
          [(subKey cl.2
              (findSuffix
                (removeKey zones cl.2 ++
                  [(subKey cl.2
                      (findSuffix (removeKey zones cl.2) cl.2
                        ((removeKey zones cl.2).length + 1) 1),
                    (sortStrings v).take (cl.1 / 2))]) cl.2
                ((removeKey zones cl.2 ++
                  [(subKey cl.2
                      (findSuffix (removeKey zones cl.2) cl.2
                        ((removeKey zones cl.2).length + 1) 1),
                    (sortStrings v).take (cl.1 / 2))]).length + 1)
                ((findSuffix (removeKey zones cl.2) cl.2
                  ((removeKey zones cl.2).length + 1) 1) + 1)),
            (sortStrings v).drop (cl.1 / 2))]) := rfl

theorem doMerge_congr {r1 r2 : Registry} (hp : r1.Perm r2)
    (hlk : ∀ k, r1.lookup k = r2.lookup k) (c0 c1 : Nat × String) :
    (doMerge r1 c0 c1 = .panic ∧ doMerge r2 c0 c1 = .panic) ∨
    (∃ a b, doMerge r1 c0 c1 = .next a ∧ doMerge r2 c0 c1 = .next b ∧ a.Perm b) := by
  rw [doMerge_eval, doMerge_eval]
  rw [hlk c0.2]
  cases hv0 : r2.lookup c0.2 with
  | none => exact Or.inl ⟨rfl, rfl⟩
  | some v0 =>
    have hlk1 := lookup_removeKey_congr hlk c0.2
    rw [hlk1 c1.2]
    cases hv1 : (removeKey r2 c0.2).lookup c1.2 with
    | none => exact Or.inl ⟨rfl, rfl⟩
    | some v1 =>
      have hlk2 := lookup_removeKey_congr hlk1 c1.2
      rw [containsKey_congr hlk2 (c0.2 ++ "/" ++ c1.2)]
      cases containsKey (removeKey (removeKey r2 c0.2) c1.2) (c0.2 ++ "/" ++ c1.2)
      · refine Or.inr ⟨_, _, rfl, rfl, ?_⟩
        exact List.Perm.append_right _ ((hp.filter _).filter _)
      · exact Or.inl ⟨by simp, by simp⟩

theorem doSplit_congr {r1 r2 : Registry} (hp : r1.Perm r2)
    (hlk : ∀ k, r1.lookup k = r2.lookup k) (cL : Nat × String) :
    (doSplit r1 cL = .panic ∧ doSplit r2 cL = .panic) ∨
    (∃ a b, doSplit r1 cL = .next a ∧ doSplit r2 cL = .next b ∧ a.Perm b) := by
  rw [doSplit_eval, doSplit_eval]
  rw [hlk cL.2]
  cases hv : r2.lookup cL.2 with
  | none => exact Or.inl ⟨rfl, rfl⟩
  | some v =>
    refine Or.inr ⟨_, _, rfl, rfl, ?_⟩
    have hlk1 := lookup_removeKey_congr hlk cL.2
    have hperm1 : (removeKey r1 cL.2).Perm (removeKey r2 cL.2) := hp.filter _
    have hlen1 : (removeKey r1 cL.2).length = (removeKey r2 cL.2).length := hperm1.length_eq
    rw [findSuffix_congr hlk1 cL.2, hlen1]
    have hlk2 := lookup_append_congr hlk1
      (subKey cL.2 (findSuffix (removeKey r2 cL.2) cL.2 ((removeKey r2 cL.2).length + 1) 1),
        (sortStrings v).take (cL.1 / 2))
    have hperm2 := hperm1.append_right
      [(subKey cL.2 (findSuffix (removeKey r2 cL.2) cL.2 ((removeKey r2 cL.2).length + 1) 1),
        (sortStrings v).take (cL.1 / 2))]
    rw [findSuffix_congr hlk2 cL.2, hperm2.length_eq]
    exact List.Perm.append_right _ hperm2

theorem balanceStep_perm {r1 r2 : Registry} (hnd : NodupKeys r1) (hp : r1.Perm r2) :
    (balanceStep r1 = .stop → balanceStep r2 = .stop) ∧
    (balanceStep r1 = .panic → balanceStep r2 = .panic) ∧
    (∀ r1n, balanceStep r1 = .next r1n →
      ∃ r2n, balanceStep r2 = .next r2n ∧ r1n.Perm r2n) := by
  have hsc := sortedClusters_perm_eq hp
  have hlk := lookup_perm_eq hp hnd
  cases hmc : mergeCand (sortedClusters r1) with
  | some cc =>
    have hs1 := balanceStep_merge hmc
    have hs2 := balanceStep_merge (r := r2) (by rw [← hsc]; exact hmc)
    rcases doMerge_congr hp hlk cc.1 cc.2 with ⟨ha, hb⟩ | ⟨a, b, ha, hb, hab⟩
    · refine ⟨?_, ?_, ?_⟩
      · intro h
        rw [hs1, ha] at h
        cases h
      · intro _
        rw [hs2, hb]
      · intro r1n h
        rw [hs1, ha] at h
        cases h
    · refine ⟨?_, ?_, ?_⟩
      · intro h
        rw [hs1, ha] at h
        cases h
      · intro h
        rw [hs1, ha] at h
        cases h
      · intro r1n h
        rw [hs1, ha] at h
        injection h with he
        subst he
        exact ⟨b, by rw [hs2, hb], hab⟩
  | none =>
    have hs1 := balanceStep_nomerge hmc
    have hs2 := balanceStep_nomerge (r := r2) (by rw [← hsc]; exact hmc)
    have hsp : ∀ rr : Registry, splitOrStop rr (sortedClusters r1) =
        match (sortedClusters r1).getLast? with
        | none => Outcome.panic
        | some c => if c.1 > 100 then doSplit rr c else Outcome.stop := fun rr => rfl
    cases hgl : (sortedClusters r1).getLast? with
    | none =>
      have e1 : balanceStep r1 = .panic := by
        rw [hs1, hsp, hgl]
      have e2 : balanceStep r2 = .panic := by
        rw [hs2, ← hsc, hsp, hgl]
      exact ⟨(fun h => by rw [e1] at h; cases h), fun _ => e2,
        fun r1n h => by rw [e1] at h; cases h⟩
    | some cL =>
      have e1 : balanceStep r1 = if cL.1 > 100 then doSplit r1 cL else .stop := by
        rw [hs1, hsp, hgl]
      have e2 : balanceStep r2 = if cL.1 > 100 then doSplit r2 cL else .stop := by
        rw [hs2, ← hsc, hsp, hgl]
      by_cases hbig : cL.1 > 100
      · rw [if_pos hbig] at e1 e2
        rcases doSplit_congr hp hlk cL with ⟨ha, hb⟩ | ⟨a, b, ha, hb, hab⟩
        · exact ⟨(fun h => by rw [e1, ha] at h; cases h), (fun _ => by rw [e2, hb]),
            fun r1n h => by rw [e1, ha] at h; cases h⟩
        · refine ⟨(fun h => by rw [e1, ha] at h; cases h),
            (fun h => by rw [e1, ha] at h; cases h), fun r1n h => ?_⟩
          rw [e1, ha] at h
          injection h with he
          subst he
          exact ⟨b, by rw [e2, hb], hab⟩
      · rw [if_neg hbig] at e1 e2
        exact ⟨(fun _ => by rw [e2]), (fun h => by rw [e1] at h; cases h),
          fun r1n h => by rw [e1] at h; cases h⟩

theorem balanceLoop_perm : ∀ (n : Nat) {r1 r2 : Registry}, NodupKeys r1 → r1.Perm r2 →
    (balanceLoop n r1 = .fuelOut → balanceLoop n r2 = .fuelOut) ∧
    (balanceLoop n r1 = .panic → balanceLoop n r2 = .panic) ∧
    (∀ z1, balanceLoop n r1 = .ok z1 →
      ∃ z2, balanceLoop n r2 = .ok z2 ∧ NodupKeys z1 ∧ z1.Perm z2) := by
  intro n
  induction n with
  | zero =>
    intro r1 r2 _ _
    exact ⟨fun _ => rfl, (fun h => by cases h), fun z1 h => by cases h⟩
  | succ m ih =>
    intro r1 r2 hnd hp
    obtain ⟨hstop, hpanic, hnext⟩ := balanceStep_perm hnd hp
    unfold balanceLoop
    cases hs : balanceStep r1 with
    | stop =>
      rw [hstop hs]
      refine ⟨(fun h => by cases h), (fun h => by cases h), fun z1 h => ?_⟩
      injection h with he
      subst he
      exact ⟨r2, rfl, hnd, hp⟩
    | panic =>
      rw [hpanic hs]
      exact ⟨(fun h => by cases h), fun _ => rfl, fun z1 h => by cases h⟩
    | next r1n =>
      obtain ⟨r2n, hs2, hpn⟩ := hnext r1n hs
      rw [hs2]
      exact ih (step_next_nodup hnd hs) hpn

theorem sortStrings_perm_eq {l1 l2 : List String} (hp : l1.Perm l2) :
    sortStrings l1 = sortStrings l2 := by
  apply List.eq_of_perm_of_sorted (r := strLE)
  · exact (sortStrings_perm l1).trans (hp.trans (sortStrings_perm l2).symm)
  · exact List.sorted_insertionSort strLE l1
  · exact List.sorted_insertionSort strLE l2

theorem rowsAux_cons (z : Registry) (k : String) (rest : List String) (i : Nat) :
    rowsAux z (k :: rest) i =
      match z.lookup k with
      | none => none
      | some chans =>
        match sortStrings chans with
        | [] => none
        | a :: t =>
          match rowsAux (removeKey z k) rest (i + 1) with
          | none => none
          | some rows =>
            some (⟨i + 1, k, a :: t, a, (a :: t).getLast (List.cons_ne_nil a t)⟩ :: rows) := rfl

theorem rowsAux_congr : ∀ (ks : List String) (i : Nat) {z1 z2 : Registry},
    NodupKeys z1 → z1.Perm z2 → rowsAux z1 ks i = rowsAux z2 ks i
  | [], _, _, _, _, _ => rfl
  | k :: rest, i, z1, z2, hnd, hp => by
    have hlk := lookup_perm_eq hp hnd
    rw [rowsAux_cons, rowsAux_cons, hlk k]
    cases hv : z2.lookup k with
    | none => rfl
    | some chans =>
      rw [rowsAux_congr rest (i + 1) (removeKey_nodup k hnd) (hp.filter _)]
      rfl

theorem writeZones_perm_eq {z1 z2 : Registry} (hnd : NodupKeys z1) (hp : z1.Perm z2) :
    writeZones z1 = writeZones z2 := by
  have hk : (keysOf z1).Perm (keysOf z2) := hp.map Prod.fst
  unfold writeZones
  rw [sortStrings_perm_eq hk, rowsAux_congr _ _ hnd hp]

theorem renderZones_perm_eq {z1 z2 : Registry} (hnd : NodupKeys z1) (hp : z1.Perm z2) :
    renderZones z1 = renderZones z2 := by
  unfold renderZones
  rw [writeZones_perm_eq hnd hp]


/-! ### The claims -/

theorem firstTok_empty_iff (g : String) :
    firstTok g = "" ↔ g.data.head? = none ∨ g.data.head? = some ' ' := by
  unfold firstTok
  cases hl : g.data with
  | nil => simp [List.asString_eq]
  | cons c cs =>
    by_cases hc : c = ' '
    · subst hc
      simp [List.takeWhile_cons, List.asString_eq]
    · simp [List.takeWhile_cons, List.asString_eq, hc]

instance (r : Registry) : Decidable (NodupKeys r) :=
  inferInstanceAs (Decidable ((keysOf r).Nodup))

/-- A registry on which the merge rule fires with a non-lexicographic joined
key. -/
def regC2 : Registry := [("b", ["x"]), ("a", ["y", "z"]), ("c", ["u", "v", "w"])]

/-- 120 distinct channel names. -/
def namesC6 : List String := (List.range 120).map (fun i => "c" ++ Nat.repr i)

/-- A registry with one oversized cluster of 120 channels. -/
def regC6 : Registry := [("k", namesC6)]

/-- Claim C1: conservation — for every input channel list, grouping followed by
any terminating run of the balancer and by serialization emits exactly the
multiset of input channel names: no name lost, none duplicated, none
omitted. -/
theorem claim_C1_conservation (chs : List Chan) (n : Nat) (r2 : Registry)
    (rows : List ZoneRow) (h1 : balanceLoop n (buildZones chs) = .ok r2)
    (h2 : writeZones r2 = some rows) :
    (rows.flatMap ZoneRow.chans).Perm (chs.map Chan.name) := by
  obtain ⟨hp, hnd2⟩ := balanceLoop_ok_invariant n (buildZones_nodup chs) h1
  exact ((writeZones_contents hnd2 h2).trans hp).trans (buildZones_contents chs)

theorem claim_C1_witness :
    (([⟨1, "10", ["a"], "a", "a"⟩] : List ZoneRow).flatMap ZoneRow.chans).Perm
      (([⟨"a", "10 A"⟩] : List Chan).map Chan.name) :=
  claim_C1_conservation [⟨"a", "10 A"⟩] 1 [("10", ["a"])] [⟨1, "10", ["a"], "a", "a"⟩]
    (by decide) (by decide)

/-- Claim C2 (amended): when at least 3 clusters exist and the two smallest
clusters in ascending `(size, key)` order have combined size below 50, the
balancer removes both and inserts a single zone whose list is the smallest
cluster's list followed by the second smallest cluster's list and whose key is
the two keys joined by `/` in ascending `(size, key)` cluster order — the
smaller cluster's key first, which is not in general ascending lexicographic
key order; a collision of the joined key aborts. -/
theorem claim_C2_merge_rule {r : Registry} {c0 c1 : Nat × String}
    (hnd : NodupKeys r) (h : mergeCand (sortedClusters r) = some (c0, c1)) :
    c0.1 + c1.1 < 50 ∧ 3 ≤ r.length ∧ pairLE c0 c1 ∧
    ∃ v0 v1,
      r.lookup c0.2 = some v0 ∧ (removeKey r c0.2).lookup c1.2 = some v1 ∧
      v0.length = c0.1 ∧ v1.length = c1.1 ∧ c0.2 ≠ c1.2 ∧
      (containsKey (removeKey (removeKey r c0.2) c1.2) (c0.2 ++ "/" ++ c1.2) = false →
        balanceStep r = .next
          (removeKey (removeKey r c0.2) c1.2 ++ [(c0.2 ++ "/" ++ c1.2, v0 ++ v1)])) ∧
      (containsKey (removeKey (removeKey r c0.2) c1.2) (c0.2 ++ "/" ++ c1.2) = true →
        balanceStep r = .panic) := by
  obtain ⟨hsum, c2, rest, hcl⟩ := mergeCand_eq_some h
  obtain ⟨v0, v1, hv0, hv1, hl0, hl1, hne, hpan, hnext⟩ := merge_shape hnd h
  have hlen : 3 ≤ r.length := by
    have h3 := sortedClusters_length r
    rw [hcl] at h3
    simp only [List.length_cons] at h3
    omega
  have hsorted := sortedClusters_sorted r
  rw [hcl] at hsorted
  have hple : pairLE c0 c1 :=
    (List.sorted_cons.mp hsorted).1 _ (List.mem_cons_self _ _)
  exact ⟨hsum, hlen, hple, v0, v1, hv0, hv1, hl0, hl1, hne, hnext, hpan⟩

/-- Counterexample to the frozen C2: with clusters b:1, a:2, c:3 the merged
key is "b/a" — the `(size, key)` order of the snapshot — although the
lexicographically ascending join would be "a/b", which is absent. -/
theorem claim_C2_counterexample :
    balanceStep regC2 = .next [("c", ["u", "v", "w"]), ("b/a", ["x", "y", "z"])] ∧
    containsKey [("c", ["u", "v", "w"]), ("b/a", ["x", "y", "z"])] ("a/b") = false ∧
    strLE ("a/b") ("b/a") ∧ ("a/b" : String) ≠ "b/a" := by
  decide

theorem claim_C2_witness :
    (1 : Nat) + 2 < 50 ∧ 3 ≤ regC2.length ∧ pairLE (1, "b") (2, "a") ∧
    ∃ v0 v1,
      regC2.lookup ("b") = some v0 ∧ (removeKey regC2 ("b")).lookup ("a") = some v1 ∧
      v0.length = 1 ∧ v1.length = 2 ∧ ("b" : String) ≠ "a" ∧
      (containsKey (removeKey (removeKey regC2 ("b")) ("a")) ("b" ++ "/" ++ "a") = false →
        balanceStep regC2 = .next
          (removeKey (removeKey regC2 ("b")) ("a") ++ [("b" ++ "/" ++ "a", v0 ++ v1)])) ∧
      (containsKey (removeKey (removeKey regC2 ("b")) ("a")) ("b" ++ "/" ++ "a") = true →
        balanceStep regC2 = .panic) :=
  @claim_C2_merge_rule regC2 (1, "b") (2, "a") (by decide) (by decide)

/-- Claim C3 (amended): the zone table is deterministic — over any two
iteration orders of the registry (modelled as permuted association lists),
the balancer panics in one run iff it panics in the other, and on success the
rendered zone tables are byte-identical.  The contact-group table, printed
straight from the hash map, is not covered: its row order follows the map's
iteration order (see the counterexample). -/
theorem claim_C3_zone_determinism {r1 r2 : Registry} (hnd : NodupKeys r1)
    (hp : r1.Perm r2) (n : Nat) :
    (balanceLoop n r1 = .panic → balanceLoop n r2 = .panic) ∧
    (∀ z1, balanceLoop n r1 = .ok z1 →
      ∃ z2, balanceLoop n r2 = .ok z2 ∧ renderZones z1 = renderZones z2) := by
  obtain ⟨_, hpanic, hok⟩ := balanceLoop_perm n hnd hp
  refine ⟨hpanic, fun z1 h => ?_⟩
  obtain ⟨z2, h2, hnd1, hpz⟩ := hok z1 h
  exact ⟨z2, h2, renderZones_perm_eq hnd1 hpz⟩

/-- Counterexample to the frozen C3: the contact-group table is rendered in
the hash map's iteration order, so two runs that enumerate the same table in
different orders produce different bytes. -/
theorem claim_C3_counterexample :
    ([((1 : Nat), "a"), (2, "b")] : List (Nat × String)).Perm [(2, "b"), (1, "a")] ∧
    renderGroups [(1, "a"), (2, "b")] ≠ renderGroups [(2, "b"), (1, "a")] := by
  refine ⟨List.Perm.swap _ _ _, ?_⟩
  decide

theorem claim_C3_witness :
    (balanceLoop 1 [("a", ["x"]), ("b", ["y"])] = .panic →
      balanceLoop 1 [("b", ["y"]), ("a", ["x"])] = .panic) ∧
    (∀ z1, balanceLoop 1 [("a", ["x"]), ("b", ["y"])] = .ok z1 →
      ∃ z2, balanceLoop 1 [("b", ["y"]), ("a", ["x"])] = .ok z2 ∧
        renderZones z1 = renderZones z2) :=
  claim_C3_zone_determinism (by decide) (by decide) 1

/-- Claim C4 (amended): the zone key is "Default" iff the leading token of the
group field is empty — which happens iff the field is empty or starts with a
space — or the token is literally "Default"; whenever the leading token is
non-empty the key is that token verbatim, numeric or not. -/
theorem claim_C4_zone_key (g : String) :
    (zoneKeyOf g = "Default" ↔ firstTok g = "" ∨ firstTok g = "Default") ∧
    (firstTok g = "" ↔ g.data.head? = none ∨ g.data.head? = some ' ') ∧
    (firstTok g ≠ "" → zoneKeyOf g = firstTok g) ∧
    (g = "" → zoneKeyOf g = "Default") := by
  refine ⟨?_, firstTok_empty_iff g, ?_, ?_⟩
  · unfold zoneKeyOf
    by_cases h : firstTok g = ""
    · rw [if_neg (not_not_intro h)]
      simp [h]
    · rw [if_pos h]
      simp [h]
  · intro h
    unfold zoneKeyOf
    rw [if_pos h]
  · intro hg
    subst hg
    decide

/-- Counterexample to the frozen C4: the group field " x" is not empty, yet
its zone key is "Default", because the leading space makes the first
space-delimited token empty. -/
theorem claim_C4_counterexample :
    zoneKeyOf (" x") = "Default" ∧ (" x" : String) ≠ "" := by
  decide

/-- Claim C5 (amended): on group fields ["10 A","10 A","20 B","","30 C"] the
grouping yields 4 clusters 10, 20, Default, 30 of sizes 2, 1, 1, 1; the
balancer merges 20 with 30 into "20/30", then Default with 10 into
"Default/10", and stops with exactly those 2 clusters — the largest original
cluster (key 10) does not survive unmerged. -/
theorem claim_C5_scenario :
    buildZones [⟨"A1", "10 A"⟩, ⟨"A2", "10 A"⟩, ⟨"B1", "20 B"⟩, ⟨"D1", ""⟩, ⟨"C1", "30 C"⟩] =
      [("10", ["A1", "A2"]), ("20", ["B1"]), ("Default", ["D1"]), ("30", ["C1"])] ∧
    sortedClusters [("10", ["A1", "A2"]), ("20", ["B1"]), ("Default", ["D1"]), ("30", ["C1"])] =
      [(1, "20"), (1, "30"), (1, "Default"), (2, "10")] ∧
    balanceStep [("10", ["A1", "A2"]), ("20", ["B1"]), ("Default", ["D1"]), ("30", ["C1"])] =
      .next [("10", ["A1", "A2"]), ("Default", ["D1"]), ("20/30", ["B1", "C1"])] ∧
    balanceStep [("10", ["A1", "A2"]), ("Default", ["D1"]), ("20/30", ["B1", "C1"])] =
      .next [("20/30", ["B1", "C1"]), ("Default/10", ["D1", "A1", "A2"])] ∧
    balanceStep [("20/30", ["B1", "C1"]), ("Default/10", ["D1", "A1", "A2"])] = .stop ∧
    balanceLoop 3 (buildZones [⟨"A1", "10 A"⟩, ⟨"A2", "10 A"⟩, ⟨"B1", "20 B"⟩, ⟨"D1", ""⟩,
        ⟨"C1", "30 C"⟩]) =
      .ok [("20/30", ["B1", "C1"]), ("Default/10", ["D1", "A1", "A2"])] := by
  decide

/-- Counterexample to the frozen C5: the final registry for that input has no
cluster keyed "10" — the largest original cluster was merged into
"Default/10", it is not one of the two survivors. -/
theorem claim_C5_counterexample :
    balanceLoop 3 (buildZones [⟨"A1", "10 A"⟩, ⟨"A2", "10 A"⟩, ⟨"B1", "20 B"⟩,
        ⟨"D1", ""⟩, ⟨"C1", "30 C"⟩]) =
      .ok [("20/30", ["B1", "C1"]), ("Default/10", ["D1", "A1", "A2"])] ∧
    (([("20/30", ["B1", "C1"]), ("Default/10", ["D1", "A1", "A2"])] : Registry).lookup ("10")
      = none) := by
  decide

/-- Claim C6: the split rule — when no merge fires and the largest cluster
exceeds 100, it is removed, its list is sorted lexicographically and split at
`size / 2` into two sorted halves of sizes `size / 2` and `size - size / 2`,
inserted under the fresh keys `"<origKey>_<n1>"` and `"<origKey>_<n2>"` found
by sequential search over suffixes not already present. -/
theorem claim_C6_split_rule {r : Registry} {cL : Nat × String} (hnd : NodupKeys r)
    (hm : mergeCand (sortedClusters r) = none)
    (hl : (sortedClusters r).getLast? = some cL) (hbig : cL.1 > 100) :
    ∃ v n1 n2,
      r.lookup cL.2 = some v ∧ v.length = cL.1 ∧
      (sortStrings v).Perm v ∧ (sortStrings v).Sorted strLE ∧
      ((sortStrings v).take (cL.1 / 2)).length = cL.1 / 2 ∧
      ((sortStrings v).drop (cL.1 / 2)).length = cL.1 - cL.1 / 2 ∧
      ((sortStrings v).take (cL.1 / 2)).Sorted strLE ∧
      ((sortStrings v).drop (cL.1 / 2)).Sorted strLE ∧
      1 ≤ n1 ∧ containsKey (removeKey r cL.2) (subKey cL.2 n1) = false ∧
      (∀ m, 1 ≤ m → m < n1 → containsKey (removeKey r cL.2) (subKey cL.2 m) = true) ∧
      n1 + 1 ≤ n2 ∧
      containsKey (removeKey r cL.2 ++ [(subKey cL.2 n1, (sortStrings v).take (cL.1 / 2))])
        (subKey cL.2 n2) = false ∧
      (∀ m, n1 + 1 ≤ m → m < n2 →
        containsKey (removeKey r cL.2 ++ [(subKey cL.2 n1, (sortStrings v).take (cL.1 / 2))])
          (subKey cL.2 m) = true) ∧
      balanceStep r = .next
        ((removeKey r cL.2 ++ [(subKey cL.2 n1, (sortStrings v).take (cL.1 / 2))]) ++
          [(subKey cL.2 n2, (sortStrings v).drop (cL.1 / 2))]) := by
  obtain ⟨v, n1, n2, hv, hvl, hn1, hn2, hstep⟩ := split_shape hnd hm hl hbig
  have hsv : (sortStrings v).length = cL.1 := by
    rw [(sortStrings_perm v).length_eq, hvl]
  have hsorted : (sortStrings v).Sorted strLE := List.sorted_insertionSort strLE v
  have spec1 := findSuffix_spec (removeKey r cL.2) cL.2 ((removeKey r cL.2).length + 1) 1
    (exists_free_suffix (removeKey r cL.2) cL.2 1)
  rw [← hn1] at spec1
  have spec2 := findSuffix_spec
    (removeKey r cL.2 ++ [(subKey cL.2 n1, (sortStrings v).take (cL.1 / 2))]) cL.2
    ((removeKey r cL.2 ++ [(subKey cL.2 n1, (sortStrings v).take (cL.1 / 2))]).length + 1)
    (n1 + 1)
    (exists_free_suffix
      (removeKey r cL.2 ++ [(subKey cL.2 n1, (sortStrings v).take (cL.1 / 2))]) cL.2 (n1 + 1))
  rw [← hn2] at spec2
  refine ⟨v, n1, n2, hv, hvl, sortStrings_perm v, hsorted, ?_, ?_, ?_, ?_, spec1.2.1,
    spec1.1, spec1.2.2, spec2.2.1, spec2.1, spec2.2.2, hstep⟩
  · rw [List.length_take, hsv]
    omega
  · rw [List.length_drop, hsv]
  · exact List.Pairwise.sublist (List.take_sublist _ _) hsorted
  · exact List.Pairwise.sublist (List.drop_sublist _ _) hsorted

theorem claim_C6_witness :
    ∃ v n1 n2,
      regC6.lookup ("k") = some v ∧ v.length = 120 ∧
      (sortStrings v).Perm v ∧ (sortStrings v).Sorted strLE ∧
      ((sortStrings v).take 60).length = 60 ∧
      ((sortStrings v).drop 60).length = 60 ∧
      ((sortStrings v).take 60).Sorted strLE ∧
      ((sortStrings v).drop 60).Sorted strLE ∧
      1 ≤ n1 ∧ containsKey (removeKey regC6 ("k")) (subKey ("k") n1) = false ∧
      (∀ m, 1 ≤ m → m < n1 → containsKey (removeKey regC6 ("k")) (subKey ("k") m) = true) ∧
      n1 + 1 ≤ n2 ∧
      containsKey (removeKey regC6 ("k") ++ [(subKey ("k") n1, (sortStrings v).take 60)])
        (subKey ("k") n2) = false ∧
      (∀ m, n1 + 1 ≤ m → m < n2 →
        containsKey (removeKey regC6 ("k") ++ [(subKey ("k") n1, (sortStrings v).take 60)])
          (subKey ("k") m) = true) ∧
      balanceStep regC6 = .next
        ((removeKey regC6 ("k") ++ [(subKey ("k") n1, (sortStrings v).take 60)]) ++
          [(subKey ("k") n2, (sortStrings v).drop 60)]) :=
  @claim_C6_split_rule regC6 (120, "k") (by decide) (by decide) (by decide) (by decide)

/-- Claim C7 (amended): for every registry with pairwise-distinct keys the
balancer loop ends after finitely many iterations — in a fixed point or in a
panic; on the empty registry it panics rather than reaching a fixed point. -/
theorem claim_C7_termination {r : Registry} (hnd : NodupKeys r) :
    ∃ n, balanceLoop n r = .panic ∨ ∃ r2, balanceLoop n r = .ok r2 := by
  obtain ⟨n, hn⟩ := balance_terminates hnd
  refine ⟨n, ?_⟩
  cases h : balanceLoop n r with
  | ok r2 => exact Or.inr ⟨r2, rfl⟩
  | panic => exact Or.inl rfl
  | fuelOut => exact absurd h hn

/-- Counterexample to the frozen C7: on the empty registry the balancer does
not reach a fixed point — the snapshot indexing panics, so no fuel makes the
loop return a final registry. -/
theorem claim_C7_counterexample :
    balanceStep ([] : Registry) = .panic ∧
    ∀ n : Nat, ∀ r2 : Registry, balanceLoop n ([] : Registry) ≠ .ok r2 := by
  refine ⟨rfl, ?_⟩
  intro n r2 h
  cases n with
  | zero => exact BalRes.noConfusion h
  | succ m => exact BalRes.noConfusion h

theorem claim_C7_witness :
    ∃ n, balanceLoop n [("k", ["a"])] = .panic ∨
      ∃ r2, balanceLoop n [("k", ["a"])] = .ok r2 :=
  claim_C7_termination (by decide)

/-- Claim C8: contact dedup, first-seen wins — the table maps each numeric id
to the full group field of the first channel carrying that id, every channel's
label is looked up through that first occurrence regardless of its own field
text, and processing further channels only appends entries. -/
theorem claim_C8_contact_dedup (chs : List Chan) :
    (∀ n, (contactTable chs).lookup n =
      (chs.find? (fun c => chanId c == some n)).map Chan.group_id) ∧
    (∀ l2, ∃ t, contactTable (chs ++ l2) = contactTable chs ++ t) ∧
    (∀ (i : Nat) (ch : Chan) (n : Nat), chs[i]? = some ch → chanId ch = some n →
      (contactLabels chs)[i]? =
        (chs.find? (fun c => chanId c == some n)).map Chan.group_id) :=
  ⟨fun n => contactTable_lookup chs n, fun l2 => contactTable_grows chs l2,
    fun i ch n hi hn => contactLabels_spec chs i ch n hi hn⟩

/-- Claim C9: fixed point — on a registry where neither rule fires (no merge
candidate, largest cluster within the split bound) the balancer stops at once:
zero merge/split iterations, and the returned registry is the input itself. -/
theorem claim_C9_fixed_point {r : Registry} {cL : Nat × String}
    (hm : mergeCand (sortedClusters r) = none)
    (hl : (sortedClusters r).getLast? = some cL) (hsmall : ¬cL.1 > 100) (n : Nat) :
    balanceStep r = .stop ∧ balanceLoop (n + 1) r = .ok r ∧ balanceCount (n + 1) r = 0 := by
  have hstop : balanceStep r = .stop := by
    rw [balanceStep_nomerge hm]
    unfold splitOrStop
    rw [hl]
    show (if cL.1 > 100 then doSplit r cL else Outcome.stop) = Outcome.stop
    rw [if_neg hsmall]
  refine ⟨hstop, ?_, ?_⟩
  · unfold balanceLoop
    rw [hstop]
  · unfold balanceCount
    rw [hstop]

theorem claim_C9_witness :
    balanceStep [("k", ["a"])] = .stop ∧
    balanceLoop 1 [("k", ["a"])] = .ok [("k", ["a"])] ∧
    balanceCount 1 [("k", ["a"])] = 0 :=
  @claim_C9_fixed_point [("k", ["a"])] (1, "k") (by decide) (by decide) (by decide) 0

/-- Claim C10: non-empty input precondition — on an empty input the registry
is empty and the balancer's snapshot step panics; with at least one channel
the registry and every zone list are non-empty, that stays true through
balancing, and serialization then always succeeds (the first/last channel
accesses are in bounds). -/
theorem claim_C10_nonempty_precondition :
    buildZones [] = ([] : Registry) ∧
    balanceStep ([] : Registry) = .panic ∧
    (∀ n : Nat, balanceLoop (n + 1) ([] : Registry) = .panic) ∧
    (∀ chs : List Chan, chs ≠ [] → buildZones chs ≠ []) ∧
    (∀ chs : List Chan, ∀ kv ∈ buildZones chs, kv.2 ≠ ([] : List String)) ∧
    (∀ (n : Nat) (r r2 : Registry), NodupKeys r →
      (∀ kv ∈ r, kv.2 ≠ ([] : List String)) → balanceLoop n r = .ok r2 →
      ∃ rows, writeZones r2 = some rows) := by
  refine ⟨rfl, rfl, fun n => rfl, fun chs h => buildZones_ne_nil h,
    fun chs => buildZones_nonempty chs, ?_⟩
  intro n r r2 hnd hne h
  obtain ⟨_, hnd2⟩ := balanceLoop_ok_invariant n hnd h
  exact writeZones_some hnd2 (balanceLoop_ok_nonempty n hnd hne h)


end DJMD5
